import Mathlib

/-!
Verification of the `rmap` library (github.com/KompiTech/rmap): a shallow
embedding of `rmap.go` and `csv.go` together with the pinned external
JSON-pointer dependency (github.com/xeipuuv/gojsonpointer) that the
path-navigation methods delegate to.

Modelling conventions:
* `map[string]interface{}` is an association list with unique keys; the list
  order stands for Go's (unspecified) map iteration order.
* Go `float64` JSON numbers are modelled as rationals (all numeric values the
  development evaluates are exactly representable).
* Go `int` and `int64` are merged into one `vInt` constructor (every method of
  the source treats them alike, modulo the lossless `int64 -> int` conversion
  in `GetInt`).
* Errors are a structured inductive carrying the data the Go code formats into
  its error strings; `errMsg` renders the exact Go message, which matters
  because `ExistsJPtr` and `SetJPtrRecursive` branch on a message prefix.
* In-place mutation of the receiver map becomes functional update; a separate
  heap model (further below) is used where aliasing itself is the property
  under study (`Copy`).
-/

set_option autoImplicit false

/-! ### Characters and strings that Go writes with escapes -/

/-- The double-quote character. -/
def dqChar : Char := Char.ofNat 34

/-- The newline character. -/
def nlChar : Char := Char.ofNat 10

/-- The single-quote character used by gojsonpointer error messages. -/
def sqChar : Char := Char.ofNat 39

/-- Left brace, as a string. -/
def lbr : String := String.singleton (Char.ofNat 123)

/-- Right brace, as a string. -/
def rbr : String := String.singleton (Char.ofNat 125)

/-- The string holding one double quote. -/
def dq : String := String.singleton dqChar

/-- The string holding one newline. -/
def nl : String := String.singleton nlChar

/-- The string holding one single quote. -/
def sqS : String := String.singleton sqChar

/-- `listStarts p s` is true iff `p` is a prefix of `s` (character lists). -/
def listStarts : List Char → List Char → Bool
  | [], _ => true
  | _ :: _, [] => false
  | a :: as, b :: bs => a == b && listStarts as bs

/-- Models Go `strings.HasPrefix s pre` (byte prefix; identical to character
prefix on the ASCII messages involved). -/
def goStartsWith (s pre : String) : Bool :=
  listStarts pre.data s.data

/-- `listHasSub hay needle` is true iff `needle` occurs as a contiguous
sublist of `hay`. -/
def listHasSub : List Char → List Char → Bool
  | [], needle => needle.isEmpty
  | c :: rest, needle => listStarts needle (c :: rest) || listHasSub rest needle

/-- Models Go `strings.Index(s, sub) != -1` (substring containment; an empty
`sub` is contained in everything, as in Go). -/
def goContains (s sub : String) : Bool :=
  listHasSub s.data sub.data

/-- Models Go `strings.Replace(s, c, "", -1)` for a one-character pattern:
every occurrence of the character is removed. -/
def goStripChar (c : Char) (s : String) : String :=
  ⟨s.data.filter (fun x => x ≠ c)⟩

/-- Models Go `strings.Join` / joining with a separator. -/
def goJoin (parts : List String) (sep : String) : String :=
  String.intercalate sep parts

/-- Dot-joined key paths (`strings.Join(path, ".")`). -/
def dotJoin (path : List String) : String :=
  String.intercalate ("." : String) path

/-- Lexicographic `≤` on character lists (Go compares strings byte-wise;
on the ASCII keys involved byte order and character order agree). -/
def listLe : List Char → List Char → Bool
  | [], _ => true
  | _ :: _, [] => false
  | a :: as, b :: bs => if a < b then true else if b < a then false else listLe as bs

/-- Lexicographic `≤` on strings. -/
def goStrLe (a b : String) : Bool := listLe a.data b.data

/-- Models Go `sort.Strings`: ascending lexicographic sort. -/
def goSortStrings (l : List String) : List String :=
  l.insertionSort (fun a b => goStrLe a b = true)

/-- Splitting a character list on a separator character (structural rendering
of Go `strings.Split` for a one-character separator; splitting the empty
string yields one empty field, as in Go). -/
def splitChar (sep : Char) : List Char → List (List Char)
  | [] => [[]]
  | c :: rest =>
    if c == sep then [] :: splitChar sep rest
    else
      match splitChar sep rest with
      | [] => [[c]]
      | g :: gs => (c :: g) :: gs

/-- Models Go `strings.Split(s, sep)` for a one-character separator. -/
def goSplit (s : String) (sep : Char) : List String :=
  (splitChar sep s.data).map (fun g => ⟨g⟩)

/-- Models the Go byte slicing `s[1:]` (byte = character on the ASCII
pointers involved). -/
def goDrop1 (s : String) : String := ⟨s.data.drop 1⟩

/-- One pass of Go `strings.Replace(s, ab, r, -1)` for a two-character
pattern `ab` and one-character replacement `r`, scanning left to right. -/
def replacePair (a b r : Char) : List Char → List Char
  | [] => []
  | [c] => [c]
  | c1 :: c2 :: rest =>
    if c1 == a && c2 == b then r :: replacePair a b r rest
    else c1 :: replacePair a b r (c2 :: rest)

/-- Decimal digits of a token, if it consists only of digits. -/
def digitsVal : List Char → Option Nat
  | [] => none
  | [c] => if c.isDigit then some (c.toNat - 48) else none
  | c :: rest =>
    match digitsVal rest, (if c.isDigit then some (c.toNat - 48) else none) with
    | some n, some d => some (d * 10 ^ rest.length + n)
    | _, _ => none

/-- Models Go `strconv.Atoi`: optional sign followed by at least one digit
(overflow, which cannot occur for any array handled here, is not modelled). -/
def goAtoi (s : String) : Option Int :=
  match s.data with
  | [] => none
  | c :: rest =>
    if c == Char.ofNat 43 then (digitsVal rest).map Int.ofNat
    else if c == Char.ofNat 45 then (digitsVal rest).map (fun n => -(n : Int))
    else (digitsVal (c :: rest)).map Int.ofNat

/-- Digits of the fractional part `num/den` (`0 ≤ num < den`), at most `fuel`
digits.  Together with `numFormat` this models the default Go formatting of
`float64` values for the terminating decimals this development evaluates. -/
def fracDigits (num den : Nat) : Nat → String
  | 0 => ""
  | fuel + 1 =>
    if num = 0 then ""
    else toString (num * 10 / den) ++ fracDigits (num * 10 % den) den fuel

/-- Models the Go default (`%v`) formatting of a `float64` for values with a
terminating decimal expansion: `1.0` prints as `1`, `1.5` as `1.5`. -/
def numFormat (q : ℚ) : String :=
  let a := |q|
  let sign := if q < 0 then ("-" : String) else ""
  let ip := a.num.toNat / a.den
  let fp := a.num.toNat % a.den
  sign ++ toString ip ++ (if fp = 0 then "" else ("." : String) ++ fracDigits fp a.den 17)

/-- Models Go `%v` of an `int`. -/
def intStr (i : Int) : String := toString i

/-! ### The document value model

The dynamic `interface{}` shapes that `rmap.go` actually dispatches on. -/

/-- A decoded Go value as stored in `Rmap.Mapa`.  `vMap` is a native
`map[string]interface{}` (association list, unique keys, order standing for
Go's unspecified iteration order); `vRmap` is a nested wrapped `Rmap` value;
`vStruct` is the `struct{}{}` placeholder used by the CSV header template;
`vInt` covers Go `int`/`int64` (JSON decoding never produces it, programmatic
construction may). -/
inductive Val where
  | vNull : Val
  | vBool : Bool → Val
  | vFloat : ℚ → Val
  | vInt : Int → Val
  | vStr : String → Val
  | vArr : List Val → Val
  | vMap : List (String × Val) → Val
  | vRmap : List (String × Val) → Val
  | vStruct : Val

/-- `Rmap` wraps a `map[string]interface{}`. -/
structure Rmap where
  Mapa : List (String × Val)

/-- The empty `Rmap` (`NewEmpty`). -/
def NewEmpty : Rmap := ⟨[]⟩

/-- Go map read: `v, ok := m[k]`. -/
def mapGet (m : List (String × Val)) (k : String) : Option Val :=
  match m with
  | [] => none
  | (k', v) :: rest => if k' == k then some v else mapGet rest k

/-- Go map write `m[k] = v`: replaces the existing entry in place or appends a
new one. -/
def mapSet (m : List (String × Val)) (k : String) (v : Val) : List (String × Val) :=
  match m with
  | [] => [(k, v)]
  | (k', v') :: rest => if k' == k then (k', v) :: rest else (k', v') :: mapSet rest k v

/-- The structured error values the modelled code can produce.  Each carries
exactly the data the Go source formats into the corresponding message. -/
inductive GoErr where
  /-- gojsonpointer: pointer string neither empty nor starting with `/`. -/
  | badPtr : GoErr
  /-- gojsonpointer: `Object has no key ...`. -/
  | objectHasNoKey : String → GoErr
  /-- gojsonpointer: `Invalid array index ...`. -/
  | invalidArrayIndex : String → GoErr
  /-- gojsonpointer: `Out of bound array[0,len] index ...`. -/
  | outOfBound : Nat → Int → GoErr
  /-- gojsonpointer: `Invalid token reference ...` (descending into a scalar). -/
  | invalidTokenReference : String → GoErr
  /-- `Get`: `key: k does not exist in object: obj`. -/
  | keyNotExist : String → String → GoErr
  /-- `errInvalidKeyType`: key, expected type, serialized object, actual Go type. -/
  | invalidKeyType : String → String → String → String → GoErr
  /-- `GetJPtrInt`: path, serialized object, actual Go type. -/
  | jptrNotIntOrFloat : String → String → String → GoErr
  /-- csv `processValue`: `unexpected key: k, not found in header`. -/
  | unexpectedKey : String → GoErr
  /-- `errors.Wrapf(inner, msg)` from github.com/pkg/errors. -/
  | wrap : String → GoErr → GoErr
deriving DecidableEq

/-- The prefix that `ExistsJPtr` and `SetJPtrRecursive` test error messages
against. -/
def ohnkMsg : String := "Object has no key"

/-- The exact Go error message of each `GoErr` (`err.Error()`). -/
def errMsg : GoErr → String
  | .badPtr => "JSON pointer must be empty or start with a " ++ dq ++ ("/" : String)
  | .objectHasNoKey k => ohnkMsg ++ (" " : String) ++ sqS ++ k ++ sqS
  | .invalidArrayIndex tok => "Invalid array index " ++ sqS ++ tok ++ sqS
  | .outOfBound len idx =>
      "Out of bound array[0," ++ toString len ++ ("] index " : String) ++ sqS ++ intStr idx ++ sqS
  | .invalidTokenReference tok => "Invalid token reference " ++ sqS ++ tok ++ sqS
  | .keyNotExist k obj => "key: " ++ k ++ (" does not exist in object: " : String) ++ obj
  | .invalidKeyType k typ obj actual =>
      "key: " ++ k ++ (" is not of type: " : String) ++ typ ++ (" in object: " : String) ++
        obj ++ (", but: " : String) ++ actual
  | .jptrNotIntOrFloat path obj actual =>
      "JSONPointer path: " ++ path ++ (" is not an INT or FLOAT64 in object: " : String) ++
        obj ++ (", but: " : String) ++ actual
  | .unexpectedKey k => "unexpected key: " ++ k ++ (", not found in header" : String)
  | .wrap msg e => msg ++ (": " : String) ++ errMsg e

/-! ### JSON serialization (`json.Marshal`) and Go `%v` / `%T` formatting

These model the external `encoding/json` and `fmt` packages at the points the
source calls them.  One modelling note: Go's `json.Marshal` emits map keys in
sorted order while `fmt` prints maps sorted by key; here entries are emitted
in list order (the list order already stands for the unordered Go map, and no
claim observes the order inside a serialized snapshot). -/

/-- The backslash, as a string. -/
def bsl : String := String.singleton (Char.ofNat 92)

/-- One hex digit. -/
def hexDigit (n : Nat) : String :=
  String.singleton (Char.ofNat (if n < 10 then 48 + n else 87 + n))

/-- Go `encoding/json` escaping of one character (with the default HTML
escaping of `<`, `>`, `&`). -/
def jsonEscChar (c : Char) : String :=
  if c == dqChar then bsl ++ dq
  else if c == Char.ofNat 92 then bsl ++ bsl
  else if c == nlChar then bsl ++ ("n" : String)
  else if c == Char.ofNat 13 then bsl ++ ("r" : String)
  else if c == Char.ofNat 9 then bsl ++ ("t" : String)
  else if c == Char.ofNat 60 then bsl ++ ("u003c" : String)
  else if c == Char.ofNat 62 then bsl ++ ("u003e" : String)
  else if c == Char.ofNat 38 then bsl ++ ("u0026" : String)
  else if c.toNat < 32 then bsl ++ ("u00" : String) ++ hexDigit (c.toNat / 16) ++ hexDigit (c.toNat % 16)
  else String.singleton c

/-- Go `encoding/json` escaping of a string body. -/
def jsonEscStr (s : String) : String :=
  String.join (s.data.map jsonEscChar)

mutual

/-- Models `json.Marshal` of a decoded value.  `struct{}{}` marshals as an
empty object; a nested `Rmap` marshals through its `MarshalJSON` as its map. -/
def toJson : Val → String
  | .vNull => "null"
  | .vBool b => if b then ("true" : String) else ("false" : String)
  | .vFloat q => numFormat q
  | .vInt n => intStr n
  | .vStr s => dq ++ jsonEscStr s ++ dq
  | .vArr xs => "[" ++ toJsonList xs ++ "]"
  | .vMap m => lbr ++ toJsonEntries m ++ rbr
  | .vRmap m => lbr ++ toJsonEntries m ++ rbr
  | .vStruct => lbr ++ rbr

/-- Comma-joined serialization of array elements. -/
def toJsonList : List Val → String
  | [] => ""
  | [v] => toJson v
  | v :: v2 :: rest => toJson v ++ ("," : String) ++ toJsonList (v2 :: rest)

/-- Comma-joined serialization of object entries. -/
def toJsonEntries : List (String × Val) → String
  | [] => ""
  | [(k, v)] => dq ++ jsonEscStr k ++ dq ++ (":" : String) ++ toJson v
  | (k, v) :: e :: rest =>
      dq ++ jsonEscStr k ++ dq ++ (":" : String) ++ toJson v ++ ("," : String) ++
        toJsonEntries (e :: rest)

end

/-- `r.String()`: the serialized JSON snapshot of an `Rmap` (its `Bytes()` as
a string; `MarshalJSON` marshals the backing map). -/
def rmapString (r : Rmap) : String := toJson (.vMap r.Mapa)

/-- Go `%T` of a stored value. -/
def goTypeName : Val → String
  | .vNull => "<nil>"
  | .vBool _ => "bool"
  | .vFloat _ => "float64"
  | .vInt _ => "int"
  | .vStr _ => "string"
  | .vArr _ => "[]interface " ++ lbr ++ rbr
  | .vMap _ => "map[string]interface " ++ lbr ++ rbr
  | .vRmap _ => "rmap.Rmap"
  | .vStruct => "struct " ++ lbr ++ rbr

mutual

/-- Models `fmt.Sprintf` with `%v` on a stored value (the empty map prints as
`map[]`, the shape claim C10 turns on). -/
def goFormat : Val → String
  | .vNull => "<nil>"
  | .vBool b => if b then ("true" : String) else ("false" : String)
  | .vFloat q => numFormat q
  | .vInt n => intStr n
  | .vStr s => s
  | .vArr xs => "[" ++ goFormatList xs ++ "]"
  | .vMap m => "map[" ++ goFormatEntries m ++ "]"
  | .vRmap m => lbr ++ ("map[" : String) ++ goFormatEntries m ++ ("]" : String) ++ rbr
  | .vStruct => lbr ++ rbr

/-- Space-joined `%v` of array elements. -/
def goFormatList : List Val → String
  | [] => ""
  | [v] => goFormat v
  | v :: v2 :: rest => goFormat v ++ (" " : String) ++ goFormatList (v2 :: rest)

/-- Space-joined `k:v` rendering of map entries. -/
def goFormatEntries : List (String × Val) → String
  | [] => ""
  | [(k, v)] => k ++ (":" : String) ++ goFormat v
  | (k, v) :: e :: rest => k ++ (":" : String) ++ goFormat v ++ (" " : String) ++ goFormatEntries (e :: rest)

end

mutual

/-- The structural effect of a `json.Marshal` / `json.Unmarshal` round trip on
a decoded value (what `Copy()` does to every stored value): Go `int`s come
back as `float64`, `struct{}{}` marshals as `{}` and decodes as an empty map,
nested `Rmap`s decode as plain maps.  The entry order of a decoded Go map is
indeterminate; the model keeps the existing order (unobservable through map
operations). -/
def jsonNorm : Val → Val
  | .vNull => .vNull
  | .vBool b => .vBool b
  | .vFloat q => .vFloat q
  | .vInt n => .vFloat (n : ℚ)
  | .vStr s => .vStr s
  | .vArr xs => .vArr (jsonNormList xs)
  | .vMap m => .vMap (jsonNormEntries m)
  | .vRmap m => .vMap (jsonNormEntries m)
  | .vStruct => .vMap []

/-- `jsonNorm` on array elements. -/
def jsonNormList : List Val → List Val
  | [] => []
  | v :: rest => jsonNorm v :: jsonNormList rest

/-- `jsonNorm` on map entries. -/
def jsonNormEntries : List (String × Val) → List (String × Val)
  | [] => []
  | (k, v) :: rest => (k, jsonNorm v) :: jsonNormEntries rest

end

/-- `Copy()`: `NewFromBytes(r.Bytes())`, the serialize/deserialize round trip,
rendered structurally. -/
def Copy (r : Rmap) : Rmap := ⟨jsonNormEntries r.Mapa⟩

/-! ### The pinned gojsonpointer dependency

`rmap.go` delegates every pointer walk to `github.com/xeipuuv/gojsonpointer`
(pinned 2019-09-05 revision).  The library is modelled here exactly: token
decoding, the `GET`/`SET` walk with its four error messages, and the
"empty pointer addresses the whole document" case. -/

/-- gojsonpointer `decodeReferenceToken`: `~1` becomes `/`, then `~0`
becomes `~` (`strings.Replace` with two-character patterns). -/
def decodeToken (t : String) : String :=
  ⟨replacePair (Char.ofNat 126) (Char.ofNat 48) (Char.ofNat 126)
    (replacePair (Char.ofNat 126) (Char.ofNat 49) (Char.ofNat 47) t.data)⟩

/-- gojsonpointer `NewJsonPointer`: the empty pointer has no tokens; a
pointer starting with `/` splits on `/` and drops the leading empty field;
anything else is refused. -/
def parsePtr (s : String) : Except GoErr (List String) :=
  if s = "" then .ok []
  else if goStartsWith s ("/") then .ok ((goSplit s (Char.ofNat 47)).tail)
  else .error .badPtr

/-- The gojsonpointer walk in `GET` mode over the remaining tokens. -/
def ptrGetTokens : List String → Val → Except GoErr Val
  | [], node => .ok node
  | t :: ts, node =>
    match node with
    | .vMap m =>
      let dt := decodeToken t
      match mapGet m dt with
      | some child => ptrGetTokens ts child
      | none => .error (.objectHasNoKey dt)
    | .vArr xs =>
      match goAtoi t with
      | none => .error (.invalidArrayIndex t)
      | some i =>
        if i < 0 ∨ (xs.length : Int) ≤ i then .error (.outOfBound xs.length i)
        else ptrGetTokens ts (xs.getD i.toNat .vNull)
    | _ => .error (.invalidTokenReference t)

/-- The gojsonpointer walk in `SET` mode: the value is stored at the final
token (creating a map key if absent); every earlier token must already
resolve.  In-place mutation of the shared structures becomes rebuilding the
spine. -/
def ptrSetTokens : List String → Val → Val → Except GoErr Val
  | [], node, _ => .ok node
  | [t], node, value =>
    match node with
    | .vMap m => .ok (.vMap (mapSet m (decodeToken t) value))
    | .vArr xs =>
      match goAtoi t with
      | none => .error (.invalidArrayIndex t)
      | some i =>
        if i < 0 ∨ (xs.length : Int) ≤ i then .error (.outOfBound xs.length i)
        else .ok (.vArr (xs.set i.toNat value))
    | _ => .error (.invalidTokenReference t)
  | t :: t2 :: ts, node, value =>
    match node with
    | .vMap m =>
      let dt := decodeToken t
      match mapGet m dt with
      | some child => (ptrSetTokens (t2 :: ts) child value).map (fun c => .vMap (mapSet m dt c))
      | none => .error (.objectHasNoKey dt)
    | .vArr xs =>
      match goAtoi t with
      | none => .error (.invalidArrayIndex t)
      | some i =>
        if i < 0 ∨ (xs.length : Int) ≤ i then .error (.outOfBound xs.length i)
        else (ptrSetTokens (t2 :: ts) (xs.getD i.toNat .vNull) value).map
          (fun c => .vArr (xs.set i.toNat c))
    | _ => .error (.invalidTokenReference t)

/-- The `SET` walk started at the document root, which is always the backing
`map[string]interface{}` of the receiver `Rmap`. -/
def setRootTokens : List String → List (String × Val) → Val → Except GoErr (List (String × Val))
  | [], m, _ => .ok m
  | [t], m, value => .ok (mapSet m (decodeToken t) value)
  | t :: t2 :: ts, m, value =>
    let dt := decodeToken t
    match mapGet m dt with
    | some child => (ptrSetTokens (t2 :: ts) child value).map (fun c => mapSet m dt c)
    | none => .error (.objectHasNoKey dt)

/-! ### Path-addressed `Rmap` operations (`rmap.go`) -/

/-- `GetJPtr`: parse the pointer, run the `GET` walk; both failure points are
wrapped with `errors.Wrapf` context. -/
def GetJPtr (r : Rmap) (path : String) : Except GoErr Val :=
  match parsePtr path with
  | .error e => .error (.wrap ("jsonptr.NewJsonPointer() failed") e)
  | .ok ts =>
    match ptrGetTokens ts (.vMap r.Mapa) with
    | .error e => .error (.wrap ("ptr.Get() failed") e)
    | .ok v => .ok v

/-- `SetJPtr`: parse, unwrap an `Rmap` value to its backing map, run the `SET`
walk from the root. -/
def SetJPtr (r : Rmap) (path : String) (value : Val) : Except GoErr Rmap :=
  match parsePtr path with
  | .error e => .error (.wrap ("jsonptr.NewJsonPointer() failed") e)
  | .ok ts =>
    let value' := match value with
      | .vRmap m => Val.vMap m
      | v => v
    match setRootTokens ts r.Mapa value' with
    | .error e => .error (.wrap ("ptr.Set() failed") e)
    | .ok m' => .ok ⟨m'⟩

/-- `ExistsJPtr`: run the raw `GET` walk; an error whose message starts with
`Object has no key` means "absent", any other error propagates (wrapped). -/
def ExistsJPtr (r : Rmap) (path : String) : Except GoErr Bool :=
  match parsePtr path with
  | .error e => .error (.wrap ("jsonptr.NewJsonPointer() failed") e)
  | .ok ts =>
    match ptrGetTokens ts (.vMap r.Mapa) with
    | .error e =>
      if goStartsWith (errMsg e) ohnkMsg then .ok false
      else .error (.wrap ("ptr.Get() failed") e)
    | .ok _ => .ok true

/-- The prefix loop of `SetJPtrRecursive` over the remaining prefix indices:
resolve each proper prefix of the pointer; on an `Object has no key` failure
create an empty map there; on any other failure stop with that error.  The
returned `Rmap` is the state of the receiver when the loop stops (the Go
method mutates in place). -/
def setJPtrRecLoop (fields : List String) : List Nat → Rmap → Rmap × Option GoErr
  | [], cur => (cur, none)
  | i :: is, cur =>
    let subPath := "/" ++ String.intercalate ("/") (fields.take (i + 1))
    match parsePtr subPath with
    | .error e => (cur, some e)
    | .ok ts =>
      match ptrGetTokens ts (.vMap cur.Mapa) with
      | .ok _ => setJPtrRecLoop fields is cur
      | .error e =>
        if goStartsWith (errMsg e) ohnkMsg then
          match setRootTokens ts cur.Mapa (.vMap []) with
          | .ok m' => setJPtrRecLoop fields is ⟨m'⟩
          | .error e2 => (cur, some e2)
        else (cur, some e)

/-- `SetJPtrRecursive`: split `jptr[1:]` on `/`, ensure every proper prefix
resolves (creating empty maps on missing keys), then do a plain `SetJPtr` of
the whole path.  Returns the final state of the receiver together with the
returned error, if any.  (Go panics on the empty string at `jptr[1:]`; no
claim evaluates that input.) -/
def SetJPtrRecursive (r : Rmap) (jptr : String) (value : Val) : Rmap × Option GoErr :=
  let fields := goSplit (goDrop1 jptr) (Char.ofNat 47)
  match setJPtrRecLoop fields (List.range (fields.length - 1)) r with
  | (cur, some e) => (cur, some e)
  | (cur, none) =>
    match SetJPtr cur jptr value with
    | .ok r' => (r', none)
    | .error e => (cur, some e)

/-- `Get`: top-level key read with the `does not exist` diagnostic. -/
def Get (r : Rmap) (key : String) : Except GoErr Val :=
  match mapGet r.Mapa key with
  | some v => .ok v
  | none => .error (.keyNotExist key (rmapString r))

/-- Go `int(f)` conversion of a `float64`: truncation toward zero, rendered on
the rational model as truncated division of numerator by denominator. -/
def goTruncF64 (q : ℚ) : Int := Int.tdiv q.num (Int.ofNat q.den)

/-- `GetInt`: top-level integer extraction; accepts `float64` (truncating),
`int64` and `int` sources, rejects everything else with the
`errInvalidKeyType` diagnostic. -/
def GetInt (r : Rmap) (key : String) : Except GoErr Int :=
  match Get r key with
  | .error e => .error (.wrap ("r.Get() failed") e)
  | .ok (.vFloat q) => .ok (goTruncF64 q)
  | .ok (.vInt n) => .ok n
  | .ok v => .error (.invalidKeyType key ("INT or FLOAT64") (rmapString r) (goTypeName v))

/-- `GetJPtrInt`: pointer-addressed integer extraction with the same numeric
acceptance and its own diagnostic format. -/
def GetJPtrInt (r : Rmap) (path : String) : Except GoErr Int :=
  match GetJPtr r path with
  | .error e => .error (.wrap ("r.GetJPtr() failed") e)
  | .ok (.vFloat q) => .ok (goTruncF64 q)
  | .ok (.vInt n) => .ok n
  | .ok v => .error (.jptrNotIntOrFloat path (rmapString r) (goTypeName v))

/-! ### The tabular projector (`csv.go`) -/

/-- The two `switch` cases `csv.go` recurses into: a nested wrapped `Rmap` or
a nested plain `map[string]interface{}`.  Everything else is a leaf. -/
def entriesOf : Val → Option (List (String × Val))
  | .vMap m => some m
  | .vRmap m => some m
  | _ => none

/-- Insertion into the `keys` set-map (`(*keys)[k] = struct{}{}`): a repeated
dotted key is recorded once. -/
def keyInsert (acc : List String) (k : String) : List String :=
  if k ∈ acc then acc else acc ++ [k]

mutual

/-- `collectKeys`: walk the entries, recursing into nested documents and
recording the dot-joined path of every leaf into the accumulated key set. -/
def collectKeys (path : List String) (m : List (String × Val)) (acc : List String) : List String :=
  match m with
  | [] => acc
  | (k, v) :: rest => collectKeys path rest (collectKeysVal path k v acc)

/-- The per-entry `switch` of `collectKeys`: nested `Rmap`s and nested plain
maps are recursed into, anything else is a leaf key. -/
def collectKeysVal (path : List String) (k : String) (v : Val) (acc : List String) : List String :=
  match v with
  | .vRmap m' => collectKeys (path ++ [k]) m' acc
  | .vMap m' => collectKeys (path ++ [k]) m' acc
  | _ => keyInsert acc (dotJoin (path ++ [k]))

end

/-- `processValue`: a leaf at dotted path `key` must already be a header key
of the row; strings get embedded newlines stripped, numbers stay numeric,
anything else falls back to `%v` stringification. -/
def processValue (value : Val) (path : List String) (row : List (String × Val)) :
    Except GoErr (List (String × Val)) :=
  let key := dotJoin path
  if (mapGet row key).isSome then
    .ok (mapSet row key
      (match value with
       | .vStr s => .vStr (goStripChar nlChar s)
       | .vFloat q => .vFloat q
       | .vInt n => .vInt n
       | v => .vStr (goFormat v)))
  else .error (.unexpectedKey key)

mutual

/-- `collectValues`: walk a document exactly as `collectKeys` does, feeding
every leaf through `processValue`; the first failure aborts. -/
def collectValues (path : List String) (m : List (String × Val)) (row : List (String × Val)) :
    Except GoErr (List (String × Val)) :=
  match m with
  | [] => .ok row
  | (k, v) :: rest =>
    match collectValuesVal path k v row with
    | .error e => .error e
    | .ok row' => collectValues path rest row'

/-- The per-entry `switch` of `collectValues`. -/
def collectValuesVal (path : List String) (k : String) (v : Val) (row : List (String × Val)) :
    Except GoErr (List (String × Val)) :=
  match v with
  | .vRmap m' => collectValues (path ++ [k]) m' row
  | .vMap m' => collectValues (path ++ [k]) m' row
  | v' => processValue v' (path ++ [k]) row

end

/-- The cell serialization inside `writeValues`: a string containing the
separator is wrapped in double quotes after any literal double quotes are
removed (not escaped); everything else, and strings without the separator,
is `%v`-formatted (which leaves a string unchanged). -/
def formatCell (val : Val) (sep : String) : String :=
  match val with
  | .vStr s =>
    if goContains s sep then
      dq ++ (if goContains s dq then goStripChar dqChar s else s) ++ dq
    else goFormat (.vStr s)
  | v => goFormat v

/-- The cell loop of `writeValues` over the sorted header keys: each key is
read from the row with `Get` (whose failure aborts the row). -/
def writeValuesCells (row : List (String × Val)) (keys : List String) (sep : String) :
    Except GoErr (List String) :=
  match keys with
  | [] => .ok []
  | k :: ks =>
    match mapGet row k with
    | none => .error (.keyNotExist k (rmapString ⟨row⟩))
    | some v =>
      match writeValuesCells row ks sep with
      | .error e => .error e
      | .ok cells => .ok (formatCell v sep :: cells)

/-- `writeValues`: serialize one row in header order, joined with the
separator. -/
def writeValues (row : List (String × Val)) (headerKeys : List String) (sep : String) :
    Except GoErr String :=
  match writeValuesCells row headerKeys sep with
  | .error e => .error e
  | .ok cells => .ok (goJoin cells sep)

/-- `writeHeader`: the separator-joined header keys. -/
def writeHeader (keys : List String) (sep : String) : String := goJoin keys sep

/-- The result of `RmapsToCSV`: either the CSV bytes, a returned error, or a
Go runtime panic (`rmaps[0]` on an empty slice). -/
inductive CsvOut where
  | panic : CsvOut
  | err : GoErr → CsvOut
  | ok : String → CsvOut
deriving DecidableEq

/-- The row template each document starts from:
`NewFromMap(header).Copy()` — the header map sends every collected key to
`struct{}{}`, and the JSON round trip of `Copy` turns each placeholder into an
empty map. -/
def rowInit (collected : List String) : List (String × Val) :=
  jsonNormEntries (collected.map (fun k => (k, Val.vStruct)))

/-- One iteration of the row loop of `RmapsToCSV`: fill the row template with
the document's leaves, then serialize it in header order. -/
def csvRow (collected headerKeys : List String) (sep : String) (rm : Rmap) :
    Except GoErr String :=
  match collectValues [] rm.Mapa (rowInit collected) with
  | .error e => .error e
  | .ok row => writeValues row headerKeys sep

/-- The row loop of `RmapsToCSV` over all documents (the first document is
also emitted as a row); every row is newline-terminated; the first failure
aborts the whole projection. -/
def csvRows (collected headerKeys : List String) (sep : String) : List Rmap → Except GoErr String
  | [] => .ok ""
  | rm :: rest =>
    match csvRow collected headerKeys sep rm with
    | .error e => .error e
    | .ok rowB =>
      match csvRows collected headerKeys sep rest with
      | .error e => .error e
      | .ok rows => .ok (rowB ++ nl ++ rows)

/-- `RmapsToCSV`: header keys are collected from the first document only and
sorted; the header line and one line per document are emitted, all
newline-terminated.  An empty input panics at `rmaps[0]` (index out of
range) — there is no explicit empty-input check in the source. -/
def RmapsToCSV : List Rmap → String → CsvOut
  | [], _ => .panic
  | first :: rest, sep =>
    let collected := collectKeys [] first.Mapa []
    let headerKeys := goSortStrings collected
    match csvRows collected headerKeys sep (first :: rest) with
    | .error e => .err e
    | .ok rows => .ok (writeHeader headerKeys sep ++ nl ++ rows)

/-! ### Specification-side characterisations

Used only on the specification side of theorems (defined independently of the
traversal code): which dotted paths address leaves of a document. -/

mutual

/-- The dotted leaf paths below `path` of an entry list, in traversal order
and without deduplication.  A leaf is any value that is not a nested
document (`Rmap`) or plain mapping; in particular an array is a leaf and its
elements contribute nothing. -/
def leafKeysE (path : List String) (m : List (String × Val)) : List String :=
  match m with
  | [] => []
  | (k, v) :: rest => leafKeysV path k v ++ leafKeysE path rest

/-- The dotted leaf paths contributed by one entry. -/
def leafKeysV (path : List String) (k : String) (v : Val) : List String :=
  match v with
  | .vRmap m' => leafKeysE (path ++ [k]) m'
  | .vMap m' => leafKeysE (path ++ [k]) m'
  | _ => [dotJoin (path ++ [k])]

end

/-- `LeafKey path m s`: `s` is the dot-joined path of some leaf of the entry
list `m` viewed below the segment list `path` — the declarative counterpart
of the Key Collector. -/
inductive LeafKey : List String → List (String × Val) → String → Prop where
  | leaf (path : List String) (m : List (String × Val)) (k : String) (v : Val) :
      (k, v) ∈ m → entriesOf v = none → LeafKey path m (dotJoin (path ++ [k]))
  | nest (path : List String) (m : List (String × Val)) (k : String) (v : Val)
      (m' : List (String × Val)) (s : String) :
      (k, v) ∈ m → entriesOf v = some m' → LeafKey (path ++ [k]) m' s → LeafKey path m s

/-! ### Heap model for `Copy` independence (claim C8)

`Copy()` is `NewFromBytes(r.Bytes())`: a serialize/deserialize round trip
whose point is that the decoded result shares no structure with the receiver.
Sharing is a property of the Go heap, so here documents are modelled with the
mutable containers (`map[string]interface{}`) as addressed heap cells; arrays
live inside cells, scalars are immutable.  Every mutating `Rmap` operation
(`SetJPtr`, `DeleteJPtr`, `SetJPtrRecursive`, ...) factors into updates of
cells reachable from the receiver's root plus allocation of fresh cells, so
cell update is the mutation primitive the independence statement quantifies
over. -/

/-- Heap addresses. -/
abbrev Addr := Nat

/-- A heap value: scalars inline, arrays inline, every nested
`map[string]interface{}` behind a reference. -/
inductive HVal where
  | hNull : HVal
  | hBool : Bool → HVal
  | hNum : ℚ → HVal
  | hInt : Int → HVal
  | hStr : String → HVal
  | hStruct : HVal
  | hArr : List HVal → HVal
  | hRef : Addr → HVal

/-- A map cell: the entries of one `map[string]interface{}`. -/
abbrev HCell := List (String × HVal)

/-- The heap: allocated cells in allocation order. -/
abbrev Heap := List (Addr × HCell)

/-- First-match cell lookup. -/
def lookupC (h : Heap) (a : Addr) : Option HCell :=
  match h with
  | [] => none
  | (a', c) :: rest => if a' = a then some c else lookupC rest a

/-- Replace the cell at an address (the mutation primitive). -/
def updateCell (h : Heap) (a : Addr) (c : HCell) : Heap :=
  match h with
  | [] => []
  | (a', c') :: rest => if a' = a then (a, c) :: rest else (a', c') :: updateCell rest a c

/-- The largest allocated address. -/
def maxAddr (h : Heap) : Addr :=
  match h with
  | [] => 0
  | (a, _) :: rest => max a (maxAddr rest)

mutual

/-- Allocate a decoded value into the heap: every map or nested `Rmap`
becomes a fresh cell (children first), everything else is inline. -/
def allocV (h : Heap) : Val → Heap × HVal
  | .vNull => (h, .hNull)
  | .vBool b => (h, .hBool b)
  | .vFloat q => (h, .hNum q)
  | .vInt n => (h, .hInt n)
  | .vStr s => (h, .hStr s)
  | .vStruct => (h, .hStruct)
  | .vArr xs =>
    match allocList h xs with
    | (h', l) => (h', .hArr l)
  | .vMap m =>
    match allocEntries h m with
    | (h', es) => (h' ++ [(maxAddr h' + 1, es)], .hRef (maxAddr h' + 1))
  | .vRmap m =>
    match allocEntries h m with
    | (h', es) => (h' ++ [(maxAddr h' + 1, es)], .hRef (maxAddr h' + 1))

/-- Allocate array elements left to right. -/
def allocList (h : Heap) : List Val → Heap × List HVal
  | [] => (h, [])
  | v :: rest =>
    match allocV h v with
    | (h', hv) =>
      match allocList h' rest with
      | (h'', l) => (h'', hv :: l)

/-- Allocate map entries left to right. -/
def allocEntries (h : Heap) : List (String × Val) → Heap × HCell
  | [] => (h, [])
  | (k, v) :: rest =>
    match allocV h v with
    | (h', hv) =>
      match allocEntries h' rest with
      | (h'', es) => (h'', (k, hv) :: es)

end

/-- Allocate a document (a root `map[string]interface{}`), returning the root
cell's address. -/
def allocDoc (h : Heap) (m : List (String × Val)) : Heap × Addr :=
  match allocEntries h m with
  | (h', es) => (h' ++ [(maxAddr h' + 1, es)], maxAddr h' + 1)

mutual

/-- Read one heap value given a reader for references (structural in the
value; references consume reading fuel through `readRefFn`). -/
def readStep (readRef : Addr → Val) : HVal → Val
  | .hNull => .vNull
  | .hBool b => .vBool b
  | .hNum q => .vFloat q
  | .hInt n => .vInt n
  | .hStr s => .vStr s
  | .hStruct => .vStruct
  | .hArr xs => .vArr (readStepList readRef xs)
  | .hRef a => readRef a

/-- `readStep` on array elements. -/
def readStepList (readRef : Addr → Val) : List HVal → List Val
  | [] => []
  | v :: rest => readStep readRef v :: readStepList readRef rest

end

/-- `readStep` on cell entries. -/
def readStepEntries (readRef : Addr → Val) : HCell → List (String × Val)
  | [] => []
  | (k, v) :: rest => (k, readStep readRef v) :: readStepEntries readRef rest

/-- Read the cell at an address, with `fuel` bounding reference depth (any
heap this development builds is read exactly with fuel larger than its cell
count). -/
def readRefFn (h : Heap) : Nat → Addr → Val
  | 0, _ => .vNull
  | fuel + 1, a =>
    match lookupC h a with
    | none => .vNull
    | some es => .vMap (readStepEntries (readRefFn h fuel) es)

/-- Read a heap value back into a decoded value. -/
def readV (h : Heap) (fuel : Nat) (v : HVal) : Val :=
  readStep (readRefFn h fuel) v

/-- Read cell entries with the given fuel. -/
def readEntries (h : Heap) (fuel : Nat) (es : HCell) : List (String × Val) :=
  readStepEntries (readRefFn h fuel) es

/-- Reading fuel that is always adequate for the heaps built here. -/
def heapFuel (h : Heap) : Nat := h.length + 1

/-- `Copy()` on the heap: read the receiver's tree (serialize), apply the
round-trip normalization (decode), and allocate the result into fresh cells
(the decoder builds all-new maps).  Returns the new heap and the copy's root
address. -/
def copyHeap (h : Heap) (a : Addr) : Heap × Addr :=
  match allocV h (jsonNorm (readV h (heapFuel h) (.hRef a))) with
  | (h', .hRef a') => (h', a')
  | (h', _) => (h', 0)

mutual

/-- Addresses referenced directly from a heap value. -/
def hvalRefs : HVal → List Addr
  | .hRef a => [a]
  | .hArr xs => hvalsRefs xs
  | _ => []

/-- Addresses referenced directly from a list of heap values. -/
def hvalsRefs : List HVal → List Addr
  | [] => []
  | v :: rest => hvalRefs v ++ hvalsRefs rest

end

/-- Addresses referenced directly from a cell. -/
def cellRefs (c : HCell) : List Addr :=
  match c with
  | [] => []
  | (_, v) :: rest => hvalRefs v ++ cellRefs rest

/-- Reachability between cell addresses. -/
inductive ReachA (h : Heap) : Addr → Addr → Prop where
  | refl (a : Addr) : ReachA h a a
  | step (a b c : Addr) (cell : HCell) :
      ReachA h a b → lookupC h b = some cell → c ∈ cellRefs cell → ReachA h a c

/-- Heap well-formedness: every reference in every cell points at an
allocated address. -/
def HeapInv (h : Heap) : Prop :=
  ∀ p ∈ h, ∀ b ∈ cellRefs p.2, b ∈ h.map Prod.fst

mutual

/-- The shape a decoded value has after being allocated and read back:
nested `Rmap` wrappers disappear into plain maps (a wrapped `Rmap` and its
backing map are the same heap object), everything else is preserved. -/
def heapShape : Val → Val
  | .vNull => .vNull
  | .vBool b => .vBool b
  | .vFloat q => .vFloat q
  | .vInt n => .vInt n
  | .vStr s => .vStr s
  | .vStruct => .vStruct
  | .vArr xs => .vArr (heapShapeList xs)
  | .vMap m => .vMap (heapShapeEntries m)
  | .vRmap m => .vMap (heapShapeEntries m)

/-- `heapShape` on array elements. -/
def heapShapeList : List Val → List Val
  | [] => []
  | v :: rest => heapShape v :: heapShapeList rest

/-- `heapShape` on map entries. -/
def heapShapeEntries : List (String × Val) → List (String × Val)
  | [] => []
  | (k, v) :: rest => (k, heapShape v) :: heapShapeEntries rest

end

mutual

/-- Reference depth of a decoded value: how much fuel reading its allocation
needs. -/
def mapDepth : Val → Nat
  | .vMap m => mapDepthEntries m + 1
  | .vRmap m => mapDepthEntries m + 1
  | .vArr xs => mapDepthList xs
  | _ => 0

/-- Reference depth of array elements. -/
def mapDepthList : List Val → Nat
  | [] => 0
  | v :: rest => max (mapDepth v) (mapDepthList rest)

/-- Reference depth of map entries. -/
def mapDepthEntries : List (String × Val) → Nat
  | [] => 0
  | (_, v) :: rest => max (mapDepth v) (mapDepthEntries rest)

end

/-! ### Small definitions used by theorem statements -/

/-- Whether a stored value is one of the two numeric shapes `GetInt` and
`GetJPtrInt` accept. -/
def isNumV : Val → Bool
  | .vFloat _ => true
  | .vInt _ => true
  | _ => false

/-- Whether a `RmapsToCSV` outcome is a returned error. -/
def isErrOut : CsvOut → Bool
  | .err _ => true
  | _ => false

/-- The sub-pointer `SetJPtrRecursive` builds for prefix index `j`:
`"/" + strings.Join(pathFields[0:j+1], "/")`. -/
def subPathOf (fields : List String) (j : Nat) : String :=
  "/" ++ String.intercalate ("/") (fields.take (j + 1))

/-- Prefix `j` of the split pointer resolves in `r`. -/
def prefixResolves (r : Rmap) (fields : List String) (j : Nat) : Prop :=
  ∃ ts v, parsePtr (subPathOf fields j) = .ok ts ∧ ptrGetTokens ts (.vMap r.Mapa) = .ok v

/-- Prefix `j` of the split pointer fails to resolve in `r` with error `e`. -/
def prefixFailsWith (r : Rmap) (fields : List String) (j : Nat) (e : GoErr) : Prop :=
  ∃ ts, parsePtr (subPathOf fields j) = .ok ts ∧ ptrGetTokens ts (.vMap r.Mapa) = .error e

/-- The sorted header `RmapsToCSV` derives from a first document with entries
`m`. -/
def headerFor (m : List (String × Val)) : List String :=
  goSortStrings (collectKeys [] m [])

/-- Newline-terminated concatenation of serialized rows (the shape of the
row-loop output). -/
def concatRows : List String → String
  | [] => ""
  | s :: rest => s ++ nl ++ concatRows rest

/-! ## Helper lemmas: strings and the message-prefix test -/

theorem strExt {a b : String} (h : a.data = b.data) : a = b := by
  cases a
  cases b
  exact congrArg String.mk h

theorem strData_append (a b : String) : (a ++ b).data = a.data ++ b.data := rfl

theorem listStarts_self_append (p r : List Char) : listStarts p (p ++ r) = true := by
  induction p with
  | nil => rfl
  | cons c cs ih => simp [listStarts, ih]

theorem listStarts_false_head {a b : Char} (p s : List Char) (h : (a == b) = false) :
    listStarts (a :: p) (b :: s) = false := by
  simp [listStarts, h]

theorem listStarts_false_second {a b c d : Char} (p s : List Char) (h : (b == d) = false) :
    listStarts (a :: b :: p) (c :: d :: s) = false := by
  simp [listStarts, h]

theorem check_objectHasNoKey (k : String) :
    goStartsWith (errMsg (.objectHasNoKey k)) ohnkMsg = true := by
  have h1 : (errMsg (.objectHasNoKey k)).data =
      ohnkMsg.data ++ ((" " : String) ++ sqS ++ k ++ sqS).data := by
    show (ohnkMsg ++ (" " : String) ++ sqS ++ k ++ sqS).data = _
    simp [strData_append, List.append_assoc]
  rw [goStartsWith, h1]
  exact listStarts_self_append _ _

theorem check_invalidArrayIndex (tok : String) :
    goStartsWith (errMsg (.invalidArrayIndex tok)) ohnkMsg = false := by
  have h1 : (errMsg (.invalidArrayIndex tok)).data =
      'I' :: (("nvalid array index " : String) ++ sqS ++ tok ++ sqS).data := rfl
  have h2 : ohnkMsg.data = 'O' :: ("bject has no key" : String).data := rfl
  rw [goStartsWith, h2, h1]
  exact listStarts_false_head _ _ (by decide)

theorem check_outOfBound (len : Nat) (idx : Int) :
    goStartsWith (errMsg (.outOfBound len idx)) ohnkMsg = false := by
  have h1 : (errMsg (.outOfBound len idx)).data =
      'O' :: 'u' :: (("t of bound array[0," : String) ++ toString len ++
        ("] index " : String) ++ sqS ++ intStr idx ++ sqS).data := rfl
  have h2 : ohnkMsg.data = 'O' :: 'b' :: ("ject has no key" : String).data := rfl
  rw [goStartsWith, h2, h1]
  exact listStarts_false_second _ _ (by decide)

theorem check_invalidTokenReference (tok : String) :
    goStartsWith (errMsg (.invalidTokenReference tok)) ohnkMsg = false := by
  have h1 : (errMsg (.invalidTokenReference tok)).data =
      'I' :: (("nvalid token reference " : String) ++ sqS ++ tok ++ sqS).data := rfl
  have h2 : ohnkMsg.data = 'O' :: ("bject has no key" : String).data := rfl
  rw [goStartsWith, h2, h1]
  exact listStarts_false_head _ _ (by decide)

/-- Every error the `GET` walk can produce is one of the four library
errors. -/
theorem ptrGet_err_shape : ∀ (ts : List String) (v : Val) (e : GoErr),
    ptrGetTokens ts v = .error e →
    (∃ k, e = .objectHasNoKey k) ∨ (∃ t, e = .invalidArrayIndex t) ∨
    (∃ l i, e = .outOfBound l i) ∨ (∃ t, e = .invalidTokenReference t) := by
  intro ts
  induction ts with
  | nil => intro v e h; simp [ptrGetTokens] at h
  | cons t ts ih =>
    intro v e h
    cases v with
    | vMap m =>
      simp only [ptrGetTokens] at h
      cases hm : mapGet m (decodeToken t) with
      | some child => rw [hm] at h; exact ih child e h
      | none => rw [hm] at h; cases h; exact .inl ⟨_, rfl⟩
    | vArr xs =>
      simp only [ptrGetTokens] at h
      cases ha : goAtoi t with
      | none => simp only [ha] at h; cases h; exact .inr (.inl ⟨_, rfl⟩)
      | some i =>
        simp only [ha] at h
        by_cases hb : i < 0 ∨ (xs.length : Int) ≤ i
        · rw [if_pos hb] at h; cases h; exact .inr (.inr (.inl ⟨_, _, rfl⟩))
        · rw [if_neg hb] at h; exact ih _ e h
    | vNull => cases h; exact .inr (.inr (.inr ⟨_, rfl⟩))
    | vBool b => cases h; exact .inr (.inr (.inr ⟨_, rfl⟩))
    | vFloat q => cases h; exact .inr (.inr (.inr ⟨_, rfl⟩))
    | vInt n => cases h; exact .inr (.inr (.inr ⟨_, rfl⟩))
    | vStr s => cases h; exact .inr (.inr (.inr ⟨_, rfl⟩))
    | vRmap m => cases h; exact .inr (.inr (.inr ⟨_, rfl⟩))
    | vStruct => cases h; exact .inr (.inr (.inr ⟨_, rfl⟩))

/-- On walk errors the message-prefix test recognises exactly the
missing-key error. -/
theorem ptrGet_err_check (ts : List String) (v : Val) (e : GoErr)
    (h : ptrGetTokens ts v = .error e) :
    goStartsWith (errMsg e) ohnkMsg = (match e with | .objectHasNoKey _ => true | _ => false) := by
  rcases ptrGet_err_shape ts v e h with ⟨k, rfl⟩ | ⟨t, rfl⟩ | ⟨l, i, rfl⟩ | ⟨t, rfl⟩
  · exact check_objectHasNoKey k
  · exact check_invalidArrayIndex t
  · exact check_outOfBound l i
  · exact check_invalidTokenReference t

/-! ## Claim C2: empty input -/

/-- C2 (counterexample): called on the empty document sequence, `RmapsToCSV`
does not return an `EmptyInput` (or any) error to the caller: the source has
no explicit empty check, and evaluation reaches `rmaps[0]`, a Go runtime
panic (index out of range), modelled by the distinct `CsvOut.panic`
outcome. -/
theorem RmapsToCSV_empty_input_no_error :
    RmapsToCSV [] ("," : String) = CsvOut.panic ∧ isErrOut (RmapsToCSV [] (",")) = false :=
  ⟨rfl, rfl⟩

/-- C2 (amended): for every separator, `RmapsToCSV` on the empty document
sequence panics from indexing the empty slice instead of returning an error;
no partial output and no error value are produced. -/
theorem RmapsToCSV_empty_input_panics (sep : String) : RmapsToCSV [] sep = CsvOut.panic := rfl

/-! ## Claim C6: cell quoting in `writeValues` -/

theorem hasSub_single_of_mem {c : Char} {l : List Char} (h : c ∈ l) :
    listHasSub l [c] = true := by
  induction l with
  | nil => cases h
  | cons x xs ih =>
    simp only [listHasSub, listStarts, Bool.or_eq_true]
    rcases List.mem_cons.mp h with rfl | hx
    · exact .inl (by simp)
    · exact .inr (ih hx)

theorem goStripChar_of_no_quote {s : String} (h : goContains s dq = false) :
    goStripChar dqChar s = s := by
  have hnm : dqChar ∉ s.data := by
    intro hm
    have : goContains s dq = true := by
      have hd : dq.data = [dqChar] := rfl
      rw [goContains, hd]
      exact hasSub_single_of_mem hm
    rw [this] at h
    cases h
  apply strExt
  show s.data.filter _ = s.data
  rw [List.filter_eq_self]
  intro a ha
  simp only [decide_eq_true_eq]
  intro heq
  exact hnm (heq ▸ ha)

/-- C6: in row serialization, a string cell containing the caller-supplied
separator is emitted wrapped in double quotes with every literal double quote
removed first (never escaped), while a string cell not containing the
separator is emitted unchanged, double quotes and all. -/
theorem writeValues_quoting_spec :
    (∀ (s sep : String), goContains s sep = true →
      formatCell (.vStr s) sep = dq ++ goStripChar dqChar s ++ dq) ∧
    (∀ (s sep : String), goContains s sep = false →
      formatCell (.vStr s) sep = s) := by
  constructor
  · intro s sep hc
    rw [formatCell, if_pos hc]
    by_cases hq : goContains s dq = true
    · rw [if_pos hq]
    · rw [if_neg hq, goStripChar_of_no_quote (Bool.eq_false_iff.mpr hq)]
  · intro s sep hc
    rw [formatCell, if_neg (by rw [hc]; exact Bool.false_ne_true)]
    rfl

/-- C6 (witness): evaluated on `a,b"c` with separator `,`, the cell is quoted
and the embedded double quote removed; on `x"y` without the separator the
cell is unchanged. -/
theorem writeValues_quoting_spec_witness :
    goContains ("a,b" ++ dq ++ "c") (",") = true ∧
    formatCell (.vStr ("a,b" ++ dq ++ "c")) (",") =
      dq ++ goStripChar dqChar ("a,b" ++ dq ++ "c") ++ dq ∧
    goContains ("x" ++ dq ++ "y") (",") = false ∧
    formatCell (.vStr ("x" ++ dq ++ "y")) (",") = ("x" ++ dq ++ "y") :=
  ⟨by decide, writeValues_quoting_spec.1 ("a,b" ++ dq ++ "c") (",") (by decide),
   by decide, writeValues_quoting_spec.2 ("x" ++ dq ++ "y") (",") (by decide)⟩

/-! ## Claim C5: integer extraction -/

/-- C5: `GetInt` and `GetJPtrInt` succeed on a stored `float64` (returning
its truncation toward zero) and on a stored true integer, and fail on every
other stored shape with a type-mismatch error carrying the key (resp. path),
the expected type, the actual Go type, and the serialized containing
document; `42.0` truncates to `42`. -/
theorem GetInt_numeric_spec :
    (∀ (r : Rmap) (k : String) (q : ℚ), mapGet r.Mapa k = some (.vFloat q) →
      GetInt r k = .ok (goTruncF64 q)) ∧
    (∀ (r : Rmap) (k : String) (n : Int), mapGet r.Mapa k = some (.vInt n) →
      GetInt r k = .ok n) ∧
    (∀ (r : Rmap) (k : String) (v : Val), mapGet r.Mapa k = some v → isNumV v = false →
      GetInt r k = .error (.invalidKeyType k ("INT or FLOAT64") (rmapString r) (goTypeName v))) ∧
    (∀ (r : Rmap) (p : String) (q : ℚ), GetJPtr r p = .ok (.vFloat q) →
      GetJPtrInt r p = .ok (goTruncF64 q)) ∧
    (∀ (r : Rmap) (p : String) (n : Int), GetJPtr r p = .ok (.vInt n) →
      GetJPtrInt r p = .ok n) ∧
    (∀ (r : Rmap) (p : String) (v : Val), GetJPtr r p = .ok v → isNumV v = false →
      GetJPtrInt r p = .error (.jptrNotIntOrFloat p (rmapString r) (goTypeName v))) ∧
    goTruncF64 (42 : ℚ) = 42 := by
  refine ⟨?_, ?_, ?_, ?_, ?_, ?_, by decide⟩
  · intro r k q h
    simp [GetInt, Get, h]
  · intro r k n h
    simp [GetInt, Get, h]
  · intro r k v h hn
    cases v <;> simp_all [GetInt, Get, isNumV]
  · intro r p q h
    simp [GetJPtrInt, h]
  · intro r p n h
    simp [GetJPtrInt, h]
  · intro r p v h hn
    cases v <;> simp_all [GetJPtrInt, isNumV]

/-- C5 (witness): a document storing `42.0` yields integer `42` from both
getters; storing the string `"42"` yields the full type-mismatch
diagnostic. -/
theorem GetInt_numeric_spec_witness :
    GetInt ⟨[(("k" : String), .vFloat 42)]⟩ ("k") = .ok 42 ∧
    GetJPtrInt ⟨[(("k" : String), .vFloat 42)]⟩ ("/k") = .ok 42 ∧
    GetInt ⟨[(("k" : String), .vStr ("42"))]⟩ ("k") =
      .error (.invalidKeyType ("k") ("INT or FLOAT64")
        (rmapString ⟨[(("k" : String), .vStr ("42"))]⟩) ("string")) := by
  refine ⟨?_, ?_, ?_⟩
  · have h := GetInt_numeric_spec.1 ⟨[(("k" : String), .vFloat 42)]⟩ ("k") 42 rfl
    rw [h]
    norm_num [goTruncF64]
  · have h := GetInt_numeric_spec.2.2.2.1 ⟨[(("k" : String), .vFloat 42)]⟩ ("/k") 42 rfl
    rw [h]
    norm_num [goTruncF64]
  · exact GetInt_numeric_spec.2.2.1 ⟨[(("k" : String), .vStr ("42"))]⟩ ("k") (.vStr ("42"))
      rfl rfl

/-! ## Claim C4: `ExistsJPtr` -/

/-- C4 (counterexample): on `{"a":[true]}` and path `/a/1` — an absent path
whose array index is out of `[0,len)` — `ExistsJPtr` does not return `false`
without error as claimed: the out-of-bound walk error does not match the
`Object has no key` prefix, so it is wrapped and propagated to the caller. -/
theorem ExistsJPtr_out_of_range_errors :
    ExistsJPtr ⟨[(("a" : String), .vArr [.vBool true])]⟩ ("/a/1")
      = .error (.wrap ("ptr.Get() failed") (.outOfBound 1 1)) := rfl

/-- C4 (amended): `ExistsJPtr` returns `false` without error exactly when the
walk fails with a missing map key; a successful walk returns `true`; every
other walk failure — including an array index outside `[0,len)`, traversal
into a scalar, or a malformed index token — propagates as an error, as does a
malformed pointer. -/
theorem ExistsJPtr_spec :
    (∀ (r : Rmap) (path : String) (ts : List String) (k : String),
        parsePtr path = .ok ts →
        ptrGetTokens ts (.vMap r.Mapa) = .error (.objectHasNoKey k) →
        ExistsJPtr r path = .ok false) ∧
    (∀ (r : Rmap) (path : String) (ts : List String) (v : Val),
        parsePtr path = .ok ts →
        ptrGetTokens ts (.vMap r.Mapa) = .ok v →
        ExistsJPtr r path = .ok true) ∧
    (∀ (r : Rmap) (path : String) (ts : List String) (e : GoErr),
        parsePtr path = .ok ts →
        ptrGetTokens ts (.vMap r.Mapa) = .error e →
        (∀ k, e ≠ .objectHasNoKey k) →
        ExistsJPtr r path = .error (.wrap ("ptr.Get() failed") e)) ∧
    (∀ (r : Rmap) (path : String) (e : GoErr),
        parsePtr path = .error e →
        ExistsJPtr r path = .error (.wrap ("jsonptr.NewJsonPointer() failed") e)) := by
  refine ⟨?_, ?_, ?_, ?_⟩
  · intro r path ts k hp hg
    rw [ExistsJPtr, hp]
    simp only [hg, check_objectHasNoKey k, if_pos]
  · intro r path ts v hp hg
    rw [ExistsJPtr, hp]
    simp only [hg]
  · intro r path ts e hp hg hne
    rw [ExistsJPtr, hp]
    simp only [hg]
    rw [ptrGet_err_check ts _ e hg]
    cases e with
    | objectHasNoKey k => exact absurd rfl (hne k)
    | badPtr => rfl
    | invalidArrayIndex t => rfl
    | outOfBound l i => rfl
    | invalidTokenReference t => rfl
    | keyNotExist a b => rfl
    | invalidKeyType a b c d => rfl
    | jptrNotIntOrFloat a b c => rfl
    | unexpectedKey a => rfl
    | wrap a b => rfl
  · intro r path e hp
    rw [ExistsJPtr, hp]

/-- C4 (witness): on `{"a":1}` the absent path `/b` is reported `false`
without error; an existing path is reported `true`; the out-of-range index
`/a/1` on `{"a":[true]}` propagates the wrapped out-of-bound error. -/
theorem ExistsJPtr_spec_witness :
    ExistsJPtr ⟨[(("a" : String), .vFloat 1)]⟩ ("/b") = .ok false ∧
    ExistsJPtr ⟨[(("a" : String), .vFloat 1)]⟩ ("/a") = .ok true ∧
    ExistsJPtr ⟨[(("a" : String), .vArr [.vBool true])]⟩ ("/a/1")
      = .error (.wrap ("ptr.Get() failed") (.outOfBound 1 1)) :=
  ⟨ExistsJPtr_spec.1 ⟨[(("a" : String), .vFloat 1)]⟩ ("/b") ["b"] ("b") rfl rfl,
   ExistsJPtr_spec.2.1 ⟨[(("a" : String), .vFloat 1)]⟩ ("/a") ["a"] (.vFloat 1) rfl rfl,
   ExistsJPtr_spec.2.2.1 ⟨[(("a" : String), .vArr [.vBool true])]⟩ ("/a/1") ["a", "1"]
     (.outOfBound 1 1) rfl rfl (fun _ h => GoErr.noConfusion h)⟩

/-! ## Claim C3: `SetJPtrRecursive` -/

/-- If every prefix before index `i` resolves and prefix `i` fails with an
error that is not a missing map key, the prefix loop stops with that error
and the receiver untouched. -/
theorem setJPtrRecLoop_propagates :
    ∀ (pre : List Nat) (fields : List String) (r : Rmap) (i : Nat) (post : List Nat) (e : GoErr),
    (∀ j ∈ pre, prefixResolves r fields j) →
    prefixFailsWith r fields i e →
    (∀ k, e ≠ .objectHasNoKey k) →
    setJPtrRecLoop fields (pre ++ i :: post) r = (r, some e) := by
  intro pre
  induction pre with
  | nil =>
    intro fields r i post e _ hfail hne
    obtain ⟨ts, hp, hg⟩ := hfail
    rw [subPathOf] at hp
    rw [List.nil_append, setJPtrRecLoop, hp]
    simp only [hg]
    rw [ptrGet_err_check ts _ e hg]
    cases e with
    | objectHasNoKey k => exact absurd rfl (hne k)
    | badPtr => rfl
    | invalidArrayIndex t => rfl
    | outOfBound l i => rfl
    | invalidTokenReference t => rfl
    | keyNotExist a b => rfl
    | invalidKeyType a b c d => rfl
    | jptrNotIntOrFloat a b c => rfl
    | unexpectedKey a => rfl
    | wrap a b => rfl
  | cons j pre ih =>
    intro fields r i post e hpre hfail hne
    obtain ⟨ts, v, hp, hg⟩ := hpre j (List.mem_cons_self j pre)
    rw [subPathOf] at hp
    rw [List.cons_append, setJPtrRecLoop, hp]
    simp only [hg]
    exact ih fields r i post e (fun j' hj' => hpre j' (List.mem_cons_of_mem j hj')) hfail hne

/-- Decomposing the loop's index list at a failing index. -/
theorem range_decomp {i n : Nat} (h : i < n) :
    List.range n = List.range i ++ i :: List.range' (i + 1) (n - (i + 1)) := by
  have h1 : List.range' 0 i ++ List.range' (0 + i) (n - i) = List.range' 0 ((n - i) + i) :=
    List.range'_append_1 0 i (n - i)
  rw [Nat.zero_add] at h1
  have he : (n - i) + i = n := by omega
  rw [he] at h1
  have h2 : List.range' i (n - i) = i :: List.range' (i + 1) (n - (i + 1)) := by
    have hs : n - i = (n - (i + 1)) + 1 := by omega
    rw [hs, List.range'_succ]
  rw [List.range_eq_range', ← h1, h2, ← List.range_eq_range']

/-- C3 (amended): for every document and well-formed multi-segment pointer,
when every proper prefix before index `i` resolves and prefix `i` fails with
any resolution error other than a missing map key (wrong type, malformed
index), `SetJPtrRecursive` propagates that error and creates nothing — the
receiver is returned untouched.  On an empty document at `/a/b/c` with value
`"x"` it succeeds: `/a` and `/a/b` are created as (initially empty)
documents and `/a/b/c` holds `"x"`.  (A pointer not starting with `/` is
only detected by the final ordinary set, after the loop may already have
created entries at reinterpreted prefixes — see the counterexample.) -/
theorem SetJPtrRecursive_spec :
    (∀ (r : Rmap) (jptr : String) (value : Val) (i : Nat) (e : GoErr),
      (let fields := goSplit (goDrop1 jptr) (Char.ofNat 47)
       i < fields.length - 1 ∧
       (∀ j, j < i → prefixResolves r fields j) ∧
       prefixFailsWith r fields i e) →
      (∀ k, e ≠ .objectHasNoKey k) →
      SetJPtrRecursive r jptr value = (r, some e)) ∧
    SetJPtrRecursive ⟨[]⟩ ("/a/b/c") (.vStr ("x"))
      = (⟨[(("a" : String), .vMap [(("b" : String), .vMap [(("c" : String), .vStr ("x"))])])]⟩,
         none) ∧
    GetJPtr (SetJPtrRecursive ⟨[]⟩ ("/a/b/c") (.vStr ("x"))).1 ("/a")
      = .ok (.vMap [(("b" : String), .vMap [(("c" : String), .vStr ("x"))])]) ∧
    GetJPtr (SetJPtrRecursive ⟨[]⟩ ("/a/b/c") (.vStr ("x"))).1 ("/a/b")
      = .ok (.vMap [(("c" : String), .vStr ("x"))]) ∧
    GetJPtr (SetJPtrRecursive ⟨[]⟩ ("/a/b/c") (.vStr ("x"))).1 ("/a/b/c") = .ok (.vStr ("x")) := by
  refine ⟨?_, rfl, rfl, rfl, rfl⟩
  intro r jptr value i e hh hne
  obtain ⟨hlen, hres, hfail⟩ := hh
  rw [SetJPtrRecursive]
  rw [range_decomp hlen]
  rw [setJPtrRecLoop_propagates (List.range i) _ r i _ e
    (fun j hj => hres j (List.mem_range.mp hj)) hfail hne]

/-- C3 (counterexample): the claim says any resolution failure other than a
missing key — a malformed pointer included — propagates "without creating
anything".  On the empty document with the malformed pointer `a/b` the call
does propagate an error (from the final ordinary set), but the prefix loop
has already re-rooted the pointer and created an entry: the receiver ends up
with one entry (`{"": {}}`) instead of staying empty. -/
theorem SetJPtrRecursive_malformed_creates :
    (SetJPtrRecursive ⟨[]⟩ ("a/b") (.vStr ("x"))).2
      = some (.wrap ("jsonptr.NewJsonPointer() failed") .badPtr) ∧
    (SetJPtrRecursive ⟨[]⟩ ("a/b") (.vStr ("x"))).1.Mapa.length = 1 ∧
    (SetJPtrRecursive ⟨[]⟩ ("a/b") (.vStr ("x"))).1.Mapa ≠ (⟨[]⟩ : Rmap).Mapa := by
  refine ⟨rfl, rfl, ?_⟩
  intro h
  exact absurd (congrArg List.length h) (by decide)

/-- C3 (witness): on `{"a": 1}` with pointer `/a/b/c`, the first prefix `/a`
resolves and the second fails with `Invalid token reference` (descent into a
scalar); `SetJPtrRecursive` returns that error with the document unchanged. -/
theorem SetJPtrRecursive_spec_witness :
    SetJPtrRecursive ⟨[(("a" : String), .vFloat 1)]⟩ ("/a/b/c") (.vStr ("x"))
      = (⟨[(("a" : String), .vFloat 1)]⟩, some (.invalidTokenReference ("b"))) := by
  refine SetJPtrRecursive_spec.1 ⟨[(("a" : String), .vFloat 1)]⟩ ("/a/b/c") (.vStr ("x")) 1
    (.invalidTokenReference ("b")) ⟨by decide, ?_, ?_⟩ (fun k h => GoErr.noConfusion h)
  · intro j hj
    interval_cases j
    exact ⟨["a"], .vFloat 1, rfl, rfl⟩
  · exact ⟨["a", "b"], rfl, rfl⟩

/-! ## Claim C9: the Key Collector -/

theorem mem_keyInsert (acc : List String) (d x : String) :
    x ∈ keyInsert acc d ↔ x ∈ acc ∨ x = d := by
  rw [keyInsert]
  split
  · next hd =>
    constructor
    · exact .inl
    · rintro (hx | rfl)
      · exact hx
      · exact hd
  · next => simp [List.mem_append]

theorem collectKeysVal_leaf (path : List String) (k : String) (v : Val) (acc : List String)
    (h : entriesOf v = none) :
    collectKeysVal path k v acc = keyInsert acc (dotJoin (path ++ [k])) := by
  cases v <;> simp_all [entriesOf, collectKeysVal]

theorem leafKeysV_leaf (path : List String) (k : String) (v : Val) (h : entriesOf v = none) :
    leafKeysV path k v = [dotJoin (path ++ [k])] := by
  cases v <;> simp_all [entriesOf, leafKeysV]

theorem mem_collectKeys (m : List (String × Val)) :
    ∀ (path acc : List String) (x : String),
      x ∈ collectKeys path m acc ↔ x ∈ acc ∨ x ∈ leafKeysE path m := by
  match m with
  | [] => intro path acc x; simp [collectKeys, leafKeysE]
  | (k, v) :: rest =>
    intro path acc x
    simp only [collectKeys, leafKeysE]
    rw [mem_collectKeys rest path _ x]
    have hval : x ∈ collectKeysVal path k v acc ↔ x ∈ acc ∨ x ∈ leafKeysV path k v := by
      match v with
      | .vRmap m' =>
        simp only [collectKeysVal, leafKeysV]
        exact mem_collectKeys m' _ acc x
      | .vMap m' =>
        simp only [collectKeysVal, leafKeysV]
        exact mem_collectKeys m' _ acc x
      | .vNull | .vBool _ | .vFloat _ | .vInt _ | .vStr _ | .vArr _ | .vStruct =>
        simp only [collectKeysVal, leafKeysV, mem_keyInsert, List.mem_singleton]
    rw [hval]
    simp only [List.mem_append, or_assoc]
termination_by sizeOf m
decreasing_by all_goals simp <;> omega

theorem LeafKey_cons {path : List String} {e : String × Val} {rest : List (String × Val)}
    {x : String} (h : LeafKey path rest x) : LeafKey path (e :: rest) x :=
  match h with
  | .leaf _ _ k v hm hn => .leaf _ _ k v (List.mem_cons_of_mem e hm) hn
  | .nest _ _ k v m' s hm hn hl => .nest _ _ k v m' s (List.mem_cons_of_mem e hm) hn hl

theorem LeafKey_cons_inv {path : List String} {k : String} {v : Val}
    {rest : List (String × Val)} {x : String} (h : LeafKey path ((k, v) :: rest) x) :
    (entriesOf v = none ∧ x = dotJoin (path ++ [k])) ∨
    (∃ m', entriesOf v = some m' ∧ LeafKey (path ++ [k]) m' x) ∨
    LeafKey path rest x := by
  cases h with
  | leaf _ _ k' v' hm hn =>
    rcases List.mem_cons.mp hm with heq | hmem
    · have h1 : k' = k := congrArg Prod.fst heq
      have h2 : v' = v := congrArg Prod.snd heq
      subst h1
      subst h2
      exact .inl ⟨hn, rfl⟩
    · exact .inr (.inr (.leaf _ _ k' v' hmem hn))
  | nest =>
    rename_i k' v' m' hn hm hl
    rcases List.mem_cons.mp hm with heq | hmem
    · have h1 : k' = k := congrArg Prod.fst heq
      have h2 : v' = v := congrArg Prod.snd heq
      subst h1
      subst h2
      exact .inr (.inl ⟨m', hn, hl⟩)
    · exact .inr (.inr (.nest _ _ k' v' m' x hmem hn hl))

theorem mem_leafKeysE_iff (m : List (String × Val)) :
    ∀ (path : List String) (x : String), x ∈ leafKeysE path m ↔ LeafKey path m x := by
  match m with
  | [] =>
    intro path x
    simp only [leafKeysE, List.not_mem_nil, false_iff]
    intro h
    cases h with
    | leaf _ _ k v hm _ => cases hm
    | nest _ _ k v m' s hm _ _ => cases hm
  | (k, v) :: rest =>
    intro path x
    simp only [leafKeysE, List.mem_append]
    constructor
    · rintro (hv | hr)
      · match v, hv with
        | .vRmap m', hv =>
          exact .nest path _ k _ m' x (List.mem_cons_self _ _) rfl
            ((mem_leafKeysE_iff m' _ x).mp hv)
        | .vMap m', hv =>
          exact .nest path _ k _ m' x (List.mem_cons_self _ _) rfl
            ((mem_leafKeysE_iff m' _ x).mp hv)
        | .vNull, hv | .vBool _, hv | .vFloat _, hv | .vInt _, hv | .vStr _, hv
        | .vArr _, hv | .vStruct, hv =>
          rw [List.mem_singleton.mp hv]
          exact .leaf path _ k _ (List.mem_cons_self _ _) rfl
      · exact LeafKey_cons ((mem_leafKeysE_iff rest path x).mp hr)
    · intro h
      rcases LeafKey_cons_inv h with ⟨hn, rfl⟩ | ⟨m', hn, hl⟩ | hr
      · left
        rw [leafKeysV_leaf _ _ _ hn]
        exact List.mem_singleton.mpr rfl
      · left
        match v, hn with
        | .vRmap m'', hn =>
          have hm' : m'' = m' := by simpa [entriesOf] using hn
          subst hm'
          exact (mem_leafKeysE_iff m'' _ x).mpr hl
        | .vMap m'', hn =>
          have hm' : m'' = m' := by simpa [entriesOf] using hn
          subst hm'
          exact (mem_leafKeysE_iff m'' _ x).mpr hl
      · exact .inr ((mem_leafKeysE_iff rest path x).mpr hr)
termination_by sizeOf m
decreasing_by all_goals simp <;> omega

/-- C9: for every tree-shaped document the Key Collector (a total, hence
terminating, function) returns exactly the set of dot-joined leaf paths: a
dotted key is collected iff it addresses a leaf, where a leaf is any value
that is not a nested document or plain mapping — in particular an array
value is itself a leaf (`LeafKey` descends only through `entriesOf`, which is
`none` on arrays, so array elements contribute nothing). -/
theorem collectKeys_exact_leaf_set :
    ∀ (m : List (String × Val)) (k : String), k ∈ collectKeys [] m [] ↔ LeafKey [] m k := by
  intro m k
  rw [mem_collectKeys m [] [] k]
  simp only [List.not_mem_nil, false_or]
  exact mem_leafKeysE_iff m [] k

/-! ## Row-filling and row-loop lemmas (claims C1, C7, C10) -/

theorem mapGet_mapSet : ∀ (m : List (String × Val)) (k k' : String) (v : Val),
    mapGet (mapSet m k v) k' = if k = k' then some v else mapGet m k'
  | [], k, k', v => by
    by_cases h : k = k'
    · subst h
      simp [mapSet, mapGet]
    · simp [mapSet, mapGet, h, beq_iff_eq]
  | (a, w) :: rest, k, k', v => by
    by_cases ha : a = k
    · subst ha
      by_cases h : a = k'
      · subst h
        simp [mapSet, mapGet]
      · simp [mapSet, mapGet, h, beq_iff_eq]
    · by_cases h2 : a = k'
      · subst h2
        have hk : ¬k = a := fun hh => ha hh.symm
        simp [mapSet, mapGet, ha, hk, beq_iff_eq]
      · simp [mapSet, mapGet, ha, h2, beq_iff_eq, mapGet_mapSet rest k k' v]

theorem processValue_ok {row : List (String × Val)} {path : List String} (v : Val)
    (h : (mapGet row (dotJoin path)).isSome = true) :
    ∃ row', processValue v path row = .ok row' ∧
      (∀ k', (mapGet row' k').isSome = (mapGet row k').isSome) ∧
      (∀ k', k' ≠ dotJoin path → mapGet row' k' = mapGet row k') := by
  refine ⟨_, by simp only [processValue]; rw [if_pos h], ?_, ?_⟩
  · intro k'
    rw [mapGet_mapSet]
    by_cases hk : dotJoin path = k'
    · subst hk
      simp [h]
    · simp [hk]
  · intro k' hk
    rw [mapGet_mapSet, if_neg (fun hh => hk hh.symm)]

theorem processValue_err {row : List (String × Val)} {path : List String} (v : Val)
    (h : (mapGet row (dotJoin path)).isSome = false) :
    processValue v path row = .error (.unexpectedKey (dotJoin path)) := by
  simp only [processValue]
  rw [if_neg (by simp [h])]

theorem collectValues_ok (m : List (String × Val)) :
    ∀ (path : List String) (row : List (String × Val)),
      (∀ x ∈ leafKeysE path m, (mapGet row x).isSome = true) →
      ∃ row', collectValues path m row = .ok row' ∧
        (∀ k', (mapGet row' k').isSome = (mapGet row k').isSome) ∧
        (∀ k', k' ∉ leafKeysE path m → mapGet row' k' = mapGet row k') := by
  match m with
  | [] =>
    intro path row _
    exact ⟨row, rfl, fun _ => rfl, fun _ _ => rfl⟩
  | (k, v) :: rest =>
    intro path row hall
    have hsplit : ∀ x, x ∈ leafKeysE path ((k, v) :: rest) ↔
        x ∈ leafKeysV path k v ∨ x ∈ leafKeysE path rest := by
      intro x
      simp [leafKeysE, List.mem_append]
    have hhead : ∃ row₁, collectValuesVal path k v row = .ok row₁ ∧
        (∀ k', (mapGet row₁ k').isSome = (mapGet row k').isSome) ∧
        (∀ k', k' ∉ leafKeysV path k v → mapGet row₁ k' = mapGet row k') := by
      match v with
      | .vRmap m' =>
        simp only [collectValuesVal, leafKeysV]
        exact collectValues_ok m' (path ++ [k]) row
          (fun x hx => hall x ((hsplit x).mpr (.inl (by simpa [leafKeysV] using hx))))
      | .vMap m' =>
        simp only [collectValuesVal, leafKeysV]
        exact collectValues_ok m' (path ++ [k]) row
          (fun x hx => hall x ((hsplit x).mpr (.inl (by simpa [leafKeysV] using hx))))
      | .vNull | .vBool _ | .vFloat _ | .vInt _ | .vStr _ | .vArr _ | .vStruct =>
        simp only [collectValuesVal, leafKeysV]
        obtain ⟨row₁, he, hks, hut⟩ :=
          processValue_ok _ (hall (dotJoin (path ++ [k]))
            ((hsplit (dotJoin (path ++ [k]))).mpr (.inl (by simp [leafKeysV]))))
        exact ⟨row₁, he, hks, fun k' hk' => hut k' (by simpa using hk')⟩
    obtain ⟨row₁, he₁, hks₁, hut₁⟩ := hhead
    obtain ⟨row₂, he₂, hks₂, hut₂⟩ := collectValues_ok rest path row₁
      (fun x hx => by rw [hks₁ x]; exact hall x ((hsplit x).mpr (.inr hx)))
    refine ⟨row₂, ?_, ?_, ?_⟩
    · simp only [collectValues, he₁]
      exact he₂
    · intro k'
      rw [hks₂ k', hks₁ k']
    · intro k' hk'
      rw [hut₂ k' (fun hh => hk' ((hsplit k').mpr (.inr hh))),
        hut₁ k' (fun hh => hk' ((hsplit k').mpr (.inl hh)))]
termination_by sizeOf m
decreasing_by all_goals simp <;> omega

theorem collectValues_err (m : List (String × Val)) :
    ∀ (path : List String) (row : List (String × Val)),
      (∃ x ∈ leafKeysE path m, (mapGet row x).isSome = false) →
      ∃ kk, collectValues path m row = .error (.unexpectedKey kk) ∧
        kk ∈ leafKeysE path m ∧ (mapGet row kk).isSome = false := by
  match m with
  | [] =>
    intro path row hmiss
    obtain ⟨x, hx, _⟩ := hmiss
    simp [leafKeysE] at hx
  | (k, v) :: rest =>
    intro path row hmiss
    have hsplit : ∀ x, x ∈ leafKeysE path ((k, v) :: rest) ↔
        x ∈ leafKeysV path k v ∨ x ∈ leafKeysE path rest := by
      intro x
      simp [leafKeysE, List.mem_append]
    by_cases hd : ∃ x ∈ leafKeysV path k v, (mapGet row x).isSome = false
    · -- the head entry already contains a missing leaf
      have hheaderr : ∃ kk, collectValuesVal path k v row = .error (.unexpectedKey kk) ∧
          kk ∈ leafKeysV path k v ∧ (mapGet row kk).isSome = false := by
        match v with
        | .vRmap m' =>
          simp only [collectValuesVal, leafKeysV]
          exact collectValues_err m' (path ++ [k]) row (by simpa [leafKeysV] using hd)
        | .vMap m' =>
          simp only [collectValuesVal, leafKeysV]
          exact collectValues_err m' (path ++ [k]) row (by simpa [leafKeysV] using hd)
        | .vNull | .vBool _ | .vFloat _ | .vInt _ | .vStr _ | .vArr _ | .vStruct =>
          simp only [collectValuesVal, leafKeysV]
          obtain ⟨x, hx, hmg⟩ := hd
          have hxx : x = dotJoin (path ++ [k]) := by simpa [leafKeysV] using hx
          subst hxx
          exact ⟨dotJoin (path ++ [k]), processValue_err _ hmg, by simp [leafKeysV], hmg⟩
      obtain ⟨kk, he, hkk, hmg⟩ := hheaderr
      refine ⟨kk, ?_, (hsplit kk).mpr (.inl hkk), hmg⟩
      simp only [collectValues, he]
    · -- the head entry fills fine; the missing leaf is in the tail
      push_neg at hd
      have hallhead : ∀ x ∈ leafKeysV path k v, (mapGet row x).isSome = true := by
        intro x hx
        cases hiso : (mapGet row x).isSome with
        | false => exact absurd hiso (hd x hx)
        | true => rfl
      have hheadok : ∃ row₁, collectValuesVal path k v row = .ok row₁ ∧
          (∀ k', (mapGet row₁ k').isSome = (mapGet row k').isSome) := by
        match v with
        | .vRmap m' =>
          simp only [collectValuesVal]
          obtain ⟨row₁, he, hks, _⟩ := collectValues_ok m' (path ++ [k]) row
            (fun x hx => hallhead x (by simpa [leafKeysV] using hx))
          exact ⟨row₁, he, hks⟩
        | .vMap m' =>
          simp only [collectValuesVal]
          obtain ⟨row₁, he, hks, _⟩ := collectValues_ok m' (path ++ [k]) row
            (fun x hx => hallhead x (by simpa [leafKeysV] using hx))
          exact ⟨row₁, he, hks⟩
        | .vNull | .vBool _ | .vFloat _ | .vInt _ | .vStr _ | .vArr _ | .vStruct =>
          simp only [collectValuesVal]
          obtain ⟨row₁, he, hks, _⟩ :=
            processValue_ok _ (hallhead (dotJoin (path ++ [k])) (by simp [leafKeysV]))
          exact ⟨row₁, he, hks⟩
      obtain ⟨row₁, he₁, hks₁⟩ := hheadok
      obtain ⟨x, hx, hxf⟩ := hmiss
      have hxrest : x ∈ leafKeysE path rest := by
        rcases (hsplit x).mp hx with hxl | hxr
        · rw [hallhead x hxl] at hxf
          cases hxf
        · exact hxr
      obtain ⟨kk, he₂, hkk₂, hmg₂⟩ := collectValues_err rest path row₁
        ⟨x, hxrest, by rw [hks₁ x]; exact hxf⟩
      refine ⟨kk, ?_, (hsplit kk).mpr (.inr hkk₂), by rw [← hks₁ kk]; exact hmg₂⟩
      simp only [collectValues, he₁]
      exact he₂
termination_by sizeOf m
decreasing_by all_goals simp <;> omega

theorem rowInit_eq (c : List String) : rowInit c = c.map (fun k => (k, Val.vMap [])) := by
  induction c with
  | nil => rfl
  | cons k c ih =>
    simp only [rowInit, List.map_cons, jsonNormEntries, jsonNorm] at *
    rw [ih]

theorem mapGet_rowInit (c : List String) (x : String) :
    mapGet (rowInit c) x = if x ∈ c then some (.vMap []) else none := by
  rw [rowInit_eq]
  induction c with
  | nil => simp [mapGet]
  | cons k c ih =>
    simp only [List.map_cons, mapGet, beq_iff_eq]
    by_cases h : k = x
    · subst h
      simp
    · rw [if_neg h, ih]
      by_cases hm : x ∈ c
      · simp [hm]
      · have hnin : x ∉ k :: c := by
          intro hin
          rcases List.mem_cons.mp hin with rfl | hxc
          · exact h rfl
          · exact hm hxc
        rw [if_neg hm, if_neg hnin]

theorem writeValuesCells_ok (row : List (String × Val)) (sep : String) :
    ∀ keys : List String, (∀ k ∈ keys, (mapGet row k).isSome = true) →
      writeValuesCells row keys sep
        = .ok (keys.map (fun k => formatCell ((mapGet row k).getD .vNull) sep)) := by
  intro keys
  induction keys with
  | nil => intro _; rfl
  | cons k ks ih =>
    intro hall
    obtain ⟨v, hv⟩ := Option.isSome_iff_exists.mp (hall k (List.mem_cons_self k ks))
    rw [writeValuesCells, hv, ih (fun k' hk' => hall k' (List.mem_cons_of_mem k hk'))]
    simp [hv]

theorem writeValuesCells_shape (row : List (String × Val)) (sep : String) :
    ∀ (keys : List String) (cells : List String), writeValuesCells row keys sep = .ok cells →
      cells = keys.map (fun k => formatCell ((mapGet row k).getD .vNull) sep) := by
  intro keys
  induction keys with
  | nil =>
    intro cells h
    cases h
    rfl
  | cons k ks ih =>
    intro cells h
    rw [writeValuesCells] at h
    cases hv : mapGet row k with
    | none => rw [hv] at h; cases h
    | some v =>
      rw [hv] at h
      cases hc : writeValuesCells row ks sep with
      | error e => rw [hc] at h; cases h
      | ok cells' =>
        rw [hc] at h
        cases h
        rw [ih cells' hc]
        simp [hv]

theorem csvRow_ok (c hk : List String) (sep : String) (rm : Rmap)
    (hall : ∀ x ∈ leafKeysE [] rm.Mapa, x ∈ c) (hkc : ∀ k ∈ hk, k ∈ c) :
    ∃ row', collectValues [] rm.Mapa (rowInit c) = .ok row' ∧
      csvRow c hk sep rm
        = .ok (goJoin (hk.map (fun k => formatCell ((mapGet row' k).getD .vNull) sep)) sep) ∧
      (∀ k', (mapGet row' k').isSome = (mapGet (rowInit c) k').isSome) ∧
      (∀ k', k' ∉ leafKeysE [] rm.Mapa → mapGet row' k' = mapGet (rowInit c) k') := by
  obtain ⟨row', he, hks, hut⟩ := collectValues_ok rm.Mapa [] (rowInit c)
    (fun x hx => by rw [mapGet_rowInit, if_pos (hall x hx)]; rfl)
  refine ⟨row', he, ?_, hks, hut⟩
  have hcells := writeValuesCells_ok row' sep hk
    (fun k hkk => by rw [hks k, mapGet_rowInit, if_pos (hkc k hkk)]; rfl)
  simp only [csvRow, he, writeValues, hcells]

theorem csvRow_err (c hk : List String) (sep : String) (rm : Rmap)
    (hmiss : ∃ x ∈ leafKeysE [] rm.Mapa, x ∉ c) :
    ∃ kk, csvRow c hk sep rm = .error (.unexpectedKey kk) ∧
      kk ∈ leafKeysE [] rm.Mapa ∧ kk ∉ c := by
  obtain ⟨x, hx, hxc⟩ := hmiss
  obtain ⟨kk, he, hkk, hmg⟩ := collectValues_err rm.Mapa [] (rowInit c)
    ⟨x, hx, by rw [mapGet_rowInit, if_neg hxc]; rfl⟩
  refine ⟨kk, ?_, hkk, ?_⟩
  · rw [csvRow, he]
  · intro hin
    rw [mapGet_rowInit, if_pos hin] at hmg
    cases hmg

theorem csvRows_ok (c hk : List String) (sep : String) :
    ∀ docs : List Rmap, (∀ d ∈ docs, ∃ s, csvRow c hk sep d = .ok s) →
      ∃ parts, List.Forall₂ (fun d s => csvRow c hk sep d = .ok s) docs parts ∧
        csvRows c hk sep docs = .ok (concatRows parts) := by
  intro docs
  induction docs with
  | nil => intro _; exact ⟨[], .nil, rfl⟩
  | cons d ds ih =>
    intro hall
    obtain ⟨s, hs⟩ := hall d (List.mem_cons_self d ds)
    obtain ⟨parts, hfa, hrows⟩ := ih (fun d' hd' => hall d' (List.mem_cons_of_mem d hd'))
    refine ⟨s :: parts, .cons hs hfa, ?_⟩
    rw [csvRows, hs, hrows, concatRows]

theorem csvRows_ok_inv (c hk : List String) (sep : String) :
    ∀ (docs : List Rmap) (out : String), csvRows c hk sep docs = .ok out →
      ∃ parts, List.Forall₂ (fun d s => csvRow c hk sep d = .ok s) docs parts ∧
        out = concatRows parts := by
  intro docs
  induction docs with
  | nil =>
    intro out h
    cases h
    exact ⟨[], .nil, rfl⟩
  | cons d ds ih =>
    intro out h
    rw [csvRows] at h
    cases hr : csvRow c hk sep d with
    | error e => rw [hr] at h; cases h
    | ok s =>
      rw [hr] at h
      cases hrs : csvRows c hk sep ds with
      | error e => rw [hrs] at h; cases h
      | ok rs =>
        rw [hrs] at h
        cases h
        obtain ⟨parts, hfa, rfl⟩ := ih rs hrs
        exact ⟨s :: parts, .cons hr hfa, rfl⟩

theorem csvRows_err_unexpected (c hk : List String) (sep : String) :
    ∀ docs : List Rmap, (∀ k ∈ hk, k ∈ c) →
      (∃ d ∈ docs, ∃ x ∈ leafKeysE [] d.Mapa, x ∉ c) →
      ∃ kk, csvRows c hk sep docs = .error (.unexpectedKey kk) ∧
        (∃ d ∈ docs, kk ∈ leafKeysE [] d.Mapa) ∧ kk ∉ c := by
  intro docs
  induction docs with
  | nil =>
    intro _ hmiss
    obtain ⟨d, hd, _⟩ := hmiss
    cases hd
  | cons d ds ih =>
    intro hkc hmiss
    by_cases hd : ∃ x ∈ leafKeysE [] d.Mapa, x ∉ c
    · obtain ⟨kk, he, hkk, hkc'⟩ := csvRow_err c hk sep d hd
      refine ⟨kk, ?_, ⟨d, List.mem_cons_self d ds, hkk⟩, hkc'⟩
      rw [csvRows, he]
    · have hdall : ∀ x ∈ leafKeysE [] d.Mapa, x ∈ c := by
        intro x hx
        by_contra hxc
        exact hd ⟨x, hx, hxc⟩
      obtain ⟨_, _, hrow, _, _⟩ := csvRow_ok c hk sep d hdall hkc
      have hmiss' : ∃ d' ∈ ds, ∃ x ∈ leafKeysE [] d'.Mapa, x ∉ c := by
        obtain ⟨d', hd', hx⟩ := hmiss
        rcases List.mem_cons.mp hd' with rfl | hmem
        · exact absurd hx hd
        · exact ⟨d', hmem, hx⟩
      obtain ⟨kk, he, ⟨d', hd', hkk⟩, hkc'⟩ := ih hkc hmiss'
      refine ⟨kk, ?_, ⟨d', List.mem_cons_of_mem d hd', hkk⟩, hkc'⟩
      rw [csvRows, hrow, he]

/-! ## Header lemmas (claim C7) -/

theorem listLe_total : ∀ a b : List Char, listLe a b = true ∨ listLe b a = true
  | [], _ => .inl rfl
  | _ :: _, [] => .inr rfl
  | a :: as, b :: bs => by
    rcases lt_trichotomy a b with h | h | h
    · left
      simp [listLe, h]
    · subst h
      rcases listLe_total as bs with ih | ih
      · left
        simp [listLe, lt_irrefl, ih]
      · right
        simp [listLe, lt_irrefl, ih]
    · right
      simp [listLe, h]

theorem listLe_trans : ∀ a b c : List Char,
    listLe a b = true → listLe b c = true → listLe a c = true
  | [], _, _, _, _ => rfl
  | _ :: _, [], _, h, _ => by cases h
  | _ :: _, _ :: _, [], _, h => by cases h
  | a :: as, b :: bs, c :: cs, h1, h2 => by
    by_cases hab : a < b
    · by_cases hbc : b < c
      · simp [listLe, lt_trans hab hbc]
      · by_cases hcb : c < b
        · simp [listLe, hbc, hcb] at h2
        · have hbce : b = c := le_antisymm (not_lt.mp hcb) (not_lt.mp hbc)
          subst hbce
          simp [listLe, hab]
    · by_cases hba : b < a
      · simp [listLe, hab, hba] at h1
      · have habe : a = b := le_antisymm (not_lt.mp hba) (not_lt.mp hab)
        subst habe
        simp only [listLe, lt_irrefl, if_false] at h1
        by_cases hac : a < c
        · simp [listLe, hac]
        · by_cases hca : c < a
          · simp [listLe, hac, hca] at h2
          · have have2 : a = c := le_antisymm (not_lt.mp hca) (not_lt.mp hac)
            subst have2
            simp only [listLe, lt_irrefl, if_false] at h2 ⊢
            exact listLe_trans as bs cs h1 h2

theorem listLe_antisymm : ∀ a b : List Char, listLe a b = true → listLe b a = true → a = b
  | [], [], _, _ => rfl
  | [], _ :: _, _, h => by cases h
  | _ :: _, [], h, _ => by cases h
  | a :: as, b :: bs, h1, h2 => by
    by_cases hab : a < b
    · simp [listLe, hab, lt_asymm hab] at h2
    · by_cases hba : b < a
      · simp [listLe, hab, hba] at h1
      · have habe : a = b := le_antisymm (not_lt.mp hba) (not_lt.mp hab)
        subst habe
        simp only [listLe, lt_irrefl, if_false] at h1 h2
        rw [listLe_antisymm as bs h1 h2]

instance : IsTotal String (fun a b => goStrLe a b = true) :=
  ⟨fun a b => listLe_total a.data b.data⟩

instance : IsTrans String (fun a b => goStrLe a b = true) :=
  ⟨fun a b c => listLe_trans a.data b.data c.data⟩

instance : IsAntisymm String (fun a b => goStrLe a b = true) :=
  ⟨fun a b h1 h2 => strExt (listLe_antisymm a.data b.data h1 h2)⟩

theorem goSortStrings_sorted (l : List String) :
    (goSortStrings l).Sorted (fun a b => goStrLe a b = true) :=
  List.sorted_insertionSort _ l

theorem goSortStrings_perm (l : List String) : List.Perm (goSortStrings l) l :=
  List.perm_insertionSort _ l

theorem keyInsert_nodup {acc : List String} (h : acc.Nodup) (k : String) :
    (keyInsert acc k).Nodup := by
  rw [keyInsert]
  split
  · exact h
  · next hk =>
    simp [List.nodup_append, h, hk]

theorem collectKeys_nodup (m : List (String × Val)) :
    ∀ (path acc : List String), acc.Nodup → (collectKeys path m acc).Nodup := by
  match m with
  | [] =>
    intro path acc h
    simpa [collectKeys] using h
  | (k, v) :: rest =>
    intro path acc h
    simp only [collectKeys]
    have hval : (collectKeysVal path k v acc).Nodup := by
      match v with
      | .vRmap m' =>
        simp only [collectKeysVal]
        exact collectKeys_nodup m' (path ++ [k]) acc h
      | .vMap m' =>
        simp only [collectKeysVal]
        exact collectKeys_nodup m' (path ++ [k]) acc h
      | .vNull | .vBool _ | .vFloat _ | .vInt _ | .vStr _ | .vArr _ | .vStruct =>
        simp only [collectKeysVal]
        exact keyInsert_nodup h _
    exact collectKeys_nodup rest path _ hval
termination_by sizeOf m
decreasing_by all_goals simp <;> omega

theorem headerFor_nodup (m : List (String × Val)) : (headerFor m).Nodup :=
  ((goSortStrings_perm _).nodup_iff).mpr (collectKeys_nodup m [] [] List.nodup_nil)

theorem mem_headerFor (m : List (String × Val)) (x : String) :
    x ∈ headerFor m ↔ LeafKey [] m x := by
  rw [headerFor, (goSortStrings_perm _).mem_iff, mem_collectKeys m [] [] x]
  simp only [List.not_mem_nil, false_or]
  exact mem_leafKeysE_iff m [] x

theorem headerFor_ext {m1 m2 : List (String × Val)}
    (h : ∀ x, LeafKey [] m1 x ↔ LeafKey [] m2 x) : headerFor m1 = headerFor m2 := by
  refine List.eq_of_perm_of_sorted ?_ (goSortStrings_sorted _) (goSortStrings_sorted _)
  refine (List.perm_ext_iff_of_nodup (headerFor_nodup m1) (headerFor_nodup m2)).mpr ?_
  intro x
  rw [mem_headerFor, mem_headerFor]
  exact h x

/-! ## Claims C1, C7, C10: the tabular projector -/

/-- C1: for a non-empty document list whose header was collected from the
first document only, any later document containing a leaf whose dotted path
is not among the header keys makes the whole projection fail with an
`UnexpectedKey` error naming an offending key; the `err` outcome carries no
bytes, so no partial output is produced. -/
theorem RmapsToCSV_unexpected_key_fails :
    ∀ (first : Rmap) (rest : List Rmap) (sep : String),
      (∃ d ∈ rest, ∃ x ∈ leafKeysE [] d.Mapa, x ∉ collectKeys [] first.Mapa []) →
      ∃ kk, kk ∉ headerFor first.Mapa ∧ (∃ d ∈ rest, kk ∈ leafKeysE [] d.Mapa) ∧
        RmapsToCSV (first :: rest) sep = .err (.unexpectedKey kk) := by
  intro first rest sep hm
  have hkc : ∀ k ∈ headerFor first.Mapa, k ∈ collectKeys [] first.Mapa [] :=
    fun k hk => (goSortStrings_perm _).mem_iff.mp hk
  have hmiss : ∃ d ∈ (first :: rest), ∃ x ∈ leafKeysE [] d.Mapa,
      x ∉ collectKeys [] first.Mapa [] := by
    obtain ⟨d, hd, hx⟩ := hm
    exact ⟨d, List.mem_cons_of_mem first hd, hx⟩
  obtain ⟨kk, he, ⟨d, hd, hkk⟩, hknc⟩ := csvRows_err_unexpected
    (collectKeys [] first.Mapa []) (headerFor first.Mapa) sep (first :: rest) hkc hmiss
  have hdrest : d ∈ rest := by
    rcases List.mem_cons.mp hd with rfl | hmem
    · exact absurd ((mem_collectKeys d.Mapa [] [] kk).mpr (.inr hkk)) hknc
    · exact hmem
  have he' : csvRows (collectKeys [] first.Mapa [])
      (goSortStrings (collectKeys [] first.Mapa [])) sep (first :: rest)
      = .error (.unexpectedKey kk) := by
    rw [headerFor] at he
    exact he
  refine ⟨kk, fun hin => hknc ((goSortStrings_perm _).mem_iff.mp hin), ⟨d, hdrest, hkk⟩, ?_⟩
  simp only [RmapsToCSV, he']

/-- C1 (witness): first document `{"a":1}`, second `{"a":1,"b":2}`: the
projection fails with an `UnexpectedKey` error naming a key outside the
header. -/
theorem RmapsToCSV_unexpected_key_fails_witness :
    (∃ d ∈ [(⟨[(("a" : String), Val.vFloat 1), (("b" : String), Val.vFloat 2)]⟩ : Rmap)],
      ∃ x ∈ leafKeysE [] d.Mapa,
        x ∉ collectKeys [] [(("a" : String), Val.vFloat 1)] []) ∧
    ∃ kk, kk ∉ headerFor [(("a" : String), Val.vFloat 1)] ∧
      (∃ d ∈ [(⟨[(("a" : String), Val.vFloat 1), (("b" : String), Val.vFloat 2)]⟩ : Rmap)],
        kk ∈ leafKeysE [] d.Mapa) ∧
      RmapsToCSV [⟨[(("a" : String), Val.vFloat 1)]⟩,
        ⟨[(("a" : String), Val.vFloat 1), (("b" : String), Val.vFloat 2)]⟩] (",")
        = .err (.unexpectedKey kk) := by
  have hyp : ∃ d ∈ [(⟨[(("a" : String), Val.vFloat 1), (("b" : String), Val.vFloat 2)]⟩ : Rmap)],
      ∃ x ∈ leafKeysE [] d.Mapa, x ∉ collectKeys [] [(("a" : String), Val.vFloat 1)] [] :=
    ⟨⟨[(("a" : String), Val.vFloat 1), (("b" : String), Val.vFloat 2)]⟩, by simp,
      ("b"), by decide, by decide⟩
  exact ⟨hyp, RmapsToCSV_unexpected_key_fails ⟨[(("a" : String), Val.vFloat 1)]⟩ _ (",") hyp⟩

theorem csvRows_ok_cells (c hk : List String) (sep : String)
    (hkc : ∀ k ∈ hk, k ∈ c) :
    ∀ docs : List Rmap, (∀ d ∈ docs, ∀ x ∈ leafKeysE [] d.Mapa, x ∈ c) →
      ∃ parts, csvRows c hk sep docs = .ok (concatRows parts) ∧
        List.Forall₂ (fun d s => ∃ cellF : String → String,
          s = goJoin (hk.map cellF) sep ∧
          ∀ h ∈ hk, h ∉ leafKeysE [] d.Mapa → cellF h = formatCell (.vMap []) sep) docs parts := by
  intro docs
  induction docs with
  | nil => intro _; exact ⟨[], rfl, .nil⟩
  | cons d ds ih =>
    intro hall
    obtain ⟨row', _, hrow, hks, hut⟩ := csvRow_ok c hk sep d
      (hall d (List.mem_cons_self d ds)) hkc
    obtain ⟨parts, hrows, hfa⟩ := ih (fun d' hd' => hall d' (List.mem_cons_of_mem d hd'))
    refine ⟨goJoin (hk.map (fun k => formatCell ((mapGet row' k).getD .vNull) sep)) sep :: parts,
      ?_, .cons ⟨fun k => formatCell ((mapGet row' k).getD .vNull) sep, rfl, ?_⟩ hfa⟩
    · rw [csvRows, hrow, hrows, concatRows]
    · intro h hhk hhl
      show formatCell ((mapGet row' h).getD .vNull) sep = formatCell (.vMap []) sep
      rw [hut h hhl, mapGet_rowInit, if_pos (hkc h hhk)]
      rfl

/-- C10: when every document's leaves are covered by the header (collected
from the first document), the projection succeeds — a later document merely
*lacking* some header key does not fail — and each absent cell is emitted as
the literal `map[]`: the row template is a JSON round-trip copy of the header
map whose `struct{}{}` placeholders decode to empty maps, and the `%v`
fallback prints an empty map as `map[]`. -/
theorem RmapsToCSV_missing_cell_prints_map :
    ∀ (first : Rmap) (rest : List Rmap) (sep : String),
      (∀ d ∈ (first :: rest), ∀ x ∈ leafKeysE [] d.Mapa, x ∈ collectKeys [] first.Mapa []) →
      goFormat (.vMap []) = ("map[]" : String) ∧
      ∃ parts : List String,
        RmapsToCSV (first :: rest) sep
          = .ok (writeHeader (headerFor first.Mapa) sep ++ nl ++ concatRows parts) ∧
        List.Forall₂ (fun d s => ∃ cellF : String → String,
            s = goJoin ((headerFor first.Mapa).map cellF) sep ∧
            ∀ h ∈ headerFor first.Mapa, h ∉ leafKeysE [] d.Mapa →
              cellF h = goFormat (.vMap [])) (first :: rest) parts := by
  intro first rest sep hall
  have hkc : ∀ k ∈ headerFor first.Mapa, k ∈ collectKeys [] first.Mapa [] :=
    fun k hk => (goSortStrings_perm _).mem_iff.mp hk
  obtain ⟨parts, hrows, hfa⟩ := csvRows_ok_cells (collectKeys [] first.Mapa [])
    (headerFor first.Mapa) sep hkc (first :: rest) hall
  have hrows' : csvRows (collectKeys [] first.Mapa [])
      (goSortStrings (collectKeys [] first.Mapa [])) sep (first :: rest)
      = .ok (concatRows parts) := by
    rw [headerFor] at hrows
    exact hrows
  refine ⟨rfl, parts, ?_, ?_⟩
  · simp only [RmapsToCSV, hrows']
    rw [headerFor]
  · exact hfa.imp (fun d s ⟨cf, hcf, hmk⟩ => ⟨cf, hcf, fun h hhk hhl => hmk h hhk hhl⟩)

/-- C10 (witness): documents `[{"a":1,"b":2},{"a":3}]` project successfully
and the second row's missing `b` cell is `map[]` (full output
`a,b\n1,2\n3,map[]\n`). -/
theorem RmapsToCSV_missing_cell_prints_map_witness :
    (∀ d ∈ [(⟨[(("a" : String), Val.vFloat 1), (("b" : String), Val.vFloat 2)]⟩ : Rmap),
        ⟨[(("a" : String), Val.vFloat 3)]⟩],
      ∀ x ∈ leafKeysE [] d.Mapa,
        x ∈ collectKeys [] [(("a" : String), Val.vFloat 1), (("b" : String), Val.vFloat 2)] []) ∧
    (goFormat (.vMap []) = ("map[]" : String) ∧
      ∃ parts : List String,
        RmapsToCSV [(⟨[(("a" : String), Val.vFloat 1), (("b" : String), Val.vFloat 2)]⟩ : Rmap),
            ⟨[(("a" : String), Val.vFloat 3)]⟩] (",")
          = .ok (writeHeader
              (headerFor [(("a" : String), Val.vFloat 1), (("b" : String), Val.vFloat 2)]) (",")
              ++ nl ++ concatRows parts) ∧
        List.Forall₂ (fun d s => ∃ cellF : String → String,
            s = goJoin ((headerFor [(("a" : String), Val.vFloat 1),
              (("b" : String), Val.vFloat 2)]).map cellF) (",") ∧
            ∀ h ∈ headerFor [(("a" : String), Val.vFloat 1), (("b" : String), Val.vFloat 2)],
              h ∉ leafKeysE [] d.Mapa → cellF h = goFormat (.vMap []))
          [(⟨[(("a" : String), Val.vFloat 1), (("b" : String), Val.vFloat 2)]⟩ : Rmap),
            ⟨[(("a" : String), Val.vFloat 3)]⟩] parts) := by
  have hyp : ∀ d ∈ [(⟨[(("a" : String), Val.vFloat 1), (("b" : String), Val.vFloat 2)]⟩ : Rmap),
      ⟨[(("a" : String), Val.vFloat 3)]⟩],
      ∀ x ∈ leafKeysE [] d.Mapa,
        x ∈ collectKeys [] [(("a" : String), Val.vFloat 1), (("b" : String), Val.vFloat 2)] [] := by
    intro d hd
    rcases List.mem_cons.mp hd with rfl | hd'
    · decide
    · rcases List.mem_cons.mp hd' with rfl | hd''
      · decide
      · cases hd''
  exact ⟨hyp, RmapsToCSV_missing_cell_prints_map
    ⟨[(("a" : String), Val.vFloat 1), (("b" : String), Val.vFloat 2)]⟩
    [⟨[(("a" : String), Val.vFloat 3)]⟩] (",") hyp⟩

theorem csvRow_ok_shape (c hk : List String) (sep : String) (d : Rmap) (s : String)
    (h : csvRow c hk sep d = .ok s) :
    ∃ cellF : String → String, s = goJoin (hk.map cellF) sep := by
  cases hcv : collectValues [] d.Mapa (rowInit c) with
  | error e =>
    rw [csvRow, hcv] at h
    cases h
  | ok row' =>
    simp only [csvRow, hcv, writeValues] at h
    cases hwc : writeValuesCells row' hk sep with
    | error e =>
      rw [hwc] at h
      cases h
    | ok cells =>
      rw [hwc] at h
      cases h
      exact ⟨fun k => formatCell ((mapGet row' k).getD .vNull) sep,
        by rw [writeValuesCells_shape row' sep hk cells hwc]⟩

/-- C7: whenever `RmapsToCSV` produces output on a non-empty document list,
the first line is the header — the collected leaf keys of the first document
sorted lexicographically ascending, independent of the map's iteration order
(any document with the same leaf-key set yields the identical header), joined
with the separator and newline-terminated — and every document (the first
included) contributes exactly one newline-terminated row whose fields are
laid out in that same sorted header order. -/
theorem RmapsToCSV_output_shape :
    ∀ (first : Rmap) (rest : List Rmap) (sep : String) (out : String),
      RmapsToCSV (first :: rest) sep = .ok out →
      (headerFor first.Mapa).Sorted (fun a b => goStrLe a b = true) ∧
      (∀ x, x ∈ headerFor first.Mapa ↔ LeafKey [] first.Mapa x) ∧
      (∀ m', (∀ x, LeafKey [] m' x ↔ LeafKey [] first.Mapa x) →
        headerFor m' = headerFor first.Mapa) ∧
      ∃ parts : List String,
        out = writeHeader (headerFor first.Mapa) sep ++ nl ++ concatRows parts ∧
        parts.length = (first :: rest).length ∧
        List.Forall₂ (fun _ s => ∃ cellF : String → String,
          s = goJoin ((headerFor first.Mapa).map cellF) sep) (first :: rest) parts := by
  intro first rest sep out hok
  refine ⟨goSortStrings_sorted _, mem_headerFor first.Mapa, fun m' hmm => headerFor_ext hmm, ?_⟩
  cases hcs : csvRows (collectKeys [] first.Mapa [])
      (goSortStrings (collectKeys [] first.Mapa [])) sep (first :: rest) with
  | error e =>
    simp only [RmapsToCSV, hcs] at hok
    exact (CsvOut.noConfusion hok)
  | ok rows =>
    simp only [RmapsToCSV, hcs] at hok
    obtain ⟨parts, hfa, rfl⟩ := csvRows_ok_inv (collectKeys [] first.Mapa [])
      (goSortStrings (collectKeys [] first.Mapa [])) sep (first :: rest) rows hcs
    refine ⟨parts, ?_, (List.Forall₂.length_eq hfa).symm, ?_⟩
    · rw [headerFor]
      exact ((CsvOut.ok.injEq _ _).mp hok).symm
    · refine hfa.imp ?_
      intro d s hs
      obtain ⟨cf, hcf⟩ := csvRow_ok_shape _ _ sep d s hs
      rw [headerFor]
      exact ⟨cf, hcf⟩

/-- C7 (witness): on the single document `{"b":2,"a":1}` with separator `,`
the output is produced and the conclusion holds: the header `a,b` is sorted
regardless of the input key order, and the single row follows it. -/
theorem RmapsToCSV_output_shape_witness :
    RmapsToCSV [(⟨[(("b" : String), Val.vFloat 2), (("a" : String), Val.vFloat 1)]⟩ : Rmap)] (",")
      = .ok ("a,b" ++ nl ++ ("1,2" ++ nl ++ "")) ∧
    ((headerFor [(("b" : String), Val.vFloat 2),
        (("a" : String), Val.vFloat 1)]).Sorted (fun a b => goStrLe a b = true) ∧
      ∃ parts : List String,
        ("a,b" ++ nl ++ ("1,2" ++ nl ++ ""))
          = writeHeader (headerFor [(("b" : String), Val.vFloat 2),
              (("a" : String), Val.vFloat 1)]) (",") ++ nl ++ concatRows parts ∧
        parts.length = 1 ∧
        List.Forall₂ (fun _ s => ∃ cellF : String → String,
            s = goJoin ((headerFor [(("b" : String), Val.vFloat 2),
              (("a" : String), Val.vFloat 1)]).map cellF) (","))
          [(⟨[(("b" : String), Val.vFloat 2), (("a" : String), Val.vFloat 1)]⟩ : Rmap)] parts) := by
  have hok : RmapsToCSV [(⟨[(("b" : String), Val.vFloat 2),
      (("a" : String), Val.vFloat 1)]⟩ : Rmap)] (",")
      = .ok ("a,b" ++ nl ++ ("1,2" ++ nl ++ "")) := by decide
  have hc := RmapsToCSV_output_shape
    ⟨[(("b" : String), Val.vFloat 2), (("a" : String), Val.vFloat 1)]⟩ [] (",")
    ("a,b" ++ nl ++ ("1,2" ++ nl ++ "")) hok
  exact ⟨hok, hc.1, hc.2.2.2⟩

/-! ## Claim C8: `Copy` — pure round-trip lemmas -/

theorem strAppend_empty (s : String) : s ++ ("" : String) = s :=
  strExt (by rw [strData_append]; exact List.append_nil _)

theorem strEmpty_append (s : String) : ("" : String) ++ s = s :=
  strExt (by rw [strData_append]; rfl)

theorem numFormat_intCast (n : Int) : numFormat ((n : Int) : ℚ) = intStr n := by
  have hnum : ((n : ℚ)).num = n := Rat.intCast_num n
  have hden : ((n : ℚ)).den = 1 := Rat.intCast_den n
  have habs : |(n : ℚ)| = ((|n| : ℤ) : ℚ) := Int.cast_abs.symm
  rw [numFormat]
  simp only [habs, Rat.intCast_num, Rat.intCast_den]
  rw [Nat.div_one, Nat.mod_one, if_pos rfl, strAppend_empty]
  have htoNat : (|n| : ℤ).toNat = n.natAbs := by
    rw [Int.abs_eq_natAbs]
    rfl
  rw [htoNat]
  cases n with
  | ofNat m =>
    rw [if_neg (by simp), strEmpty_append]
    rfl
  | negSucc m =>
    rw [if_pos (by exact_mod_cast Int.negSucc_lt_zero m)]
    rfl

mutual

theorem toJson_jsonNorm : ∀ v : Val, toJson (jsonNorm v) = toJson v
  | .vNull => rfl
  | .vBool _ => rfl
  | .vFloat _ => rfl
  | .vInt n => numFormat_intCast n
  | .vStr _ => rfl
  | .vArr xs => by
    simp only [jsonNorm, toJson]
    rw [toJsonList_jsonNorm xs]
  | .vMap m => by
    simp only [jsonNorm, toJson]
    rw [toJsonEntries_jsonNorm m]
  | .vRmap m => by
    simp only [jsonNorm, toJson]
    rw [toJsonEntries_jsonNorm m]
  | .vStruct => by
    simp only [jsonNorm, toJson, toJsonEntries]
    rw [strAppend_empty]

theorem toJsonList_jsonNorm : ∀ xs : List Val, toJsonList (jsonNormList xs) = toJsonList xs
  | [] => rfl
  | [v] => by
    simp only [jsonNormList, toJsonList]
    exact toJson_jsonNorm v
  | v :: v2 :: rest => by
    simp only [jsonNormList, toJsonList]
    rw [toJson_jsonNorm v]
    have hrest := toJsonList_jsonNorm (v2 :: rest)
    simp only [jsonNormList] at hrest
    rw [hrest]

theorem toJsonEntries_jsonNorm : ∀ m : List (String × Val),
    toJsonEntries (jsonNormEntries m) = toJsonEntries m
  | [] => rfl
  | [(k, v)] => by
    simp only [jsonNormEntries, toJsonEntries]
    rw [toJson_jsonNorm v]
  | (k, v) :: e :: rest => by
    simp only [jsonNormEntries, toJsonEntries]
    rw [toJson_jsonNorm v]
    have hrest := toJsonEntries_jsonNorm (e :: rest)
    simp only [jsonNormEntries] at hrest
    obtain ⟨k2, v2⟩ := e
    simp only [jsonNormEntries] at hrest ⊢
    rw [hrest]

end

mutual

theorem heapShape_jsonNorm : ∀ v : Val, heapShape (jsonNorm v) = jsonNorm v
  | .vNull => rfl
  | .vBool _ => rfl
  | .vFloat _ => rfl
  | .vInt _ => rfl
  | .vStr _ => rfl
  | .vArr xs => by
    simp only [jsonNorm, heapShape]
    rw [heapShapeList_jsonNorm xs]
  | .vMap m => by
    simp only [jsonNorm, heapShape]
    rw [heapShapeEntries_jsonNorm m]
  | .vRmap m => by
    simp only [jsonNorm, heapShape]
    rw [heapShapeEntries_jsonNorm m]
  | .vStruct => by
    simp only [jsonNorm, heapShape, heapShapeEntries]

theorem heapShapeList_jsonNorm : ∀ xs : List Val,
    heapShapeList (jsonNormList xs) = jsonNormList xs
  | [] => rfl
  | v :: rest => by
    simp only [jsonNormList, heapShapeList]
    rw [heapShape_jsonNorm v, heapShapeList_jsonNorm rest]

theorem heapShapeEntries_jsonNorm : ∀ m : List (String × Val),
    heapShapeEntries (jsonNormEntries m) = jsonNormEntries m
  | [] => rfl
  | (k, v) :: rest => by
    simp only [jsonNormEntries, heapShapeEntries]
    rw [heapShape_jsonNorm v, heapShapeEntries_jsonNorm rest]

end

/-! ### Basic heap lemmas -/

theorem mem_dom_le_maxAddr : ∀ (h : Heap) (a : Addr), a ∈ h.map Prod.fst → a ≤ maxAddr h
  | [], a, ha => absurd ha (List.not_mem_nil a)
  | (a', _) :: rest, a, ha => by
    simp only [List.map_cons, List.mem_cons] at ha
    rcases ha with rfl | ha
    · exact le_max_left _ _
    · exact le_trans (mem_dom_le_maxAddr rest a ha) (le_max_right _ _)

theorem maxAddr_append (h h' : Heap) :
    maxAddr (h ++ h') = max (maxAddr h) (maxAddr h') := by
  induction h with
  | nil => simp [maxAddr]
  | cons p rest ih =>
    obtain ⟨a, c⟩ := p
    show max a (maxAddr (rest ++ h')) = max (max a (maxAddr rest)) (maxAddr h')
    rw [ih, max_assoc]

theorem lookupC_some_mem : ∀ (h : Heap) (a : Addr) (c : HCell),
    lookupC h a = some c → (a, c) ∈ h
  | [], _, _, hl => by simp [lookupC] at hl
  | (a', c') :: rest, a, c, hl => by
    have hl' : (if a' = a then some c' else lookupC rest a) = some c := hl
    by_cases ha : a' = a
    · subst ha
      rw [if_pos rfl] at hl'
      injection hl' with hl'
      subst hl'
      exact List.mem_cons_self _ _
    · rw [if_neg ha] at hl'
      exact List.mem_cons_of_mem _ (lookupC_some_mem rest a c hl')

theorem lookupC_eq_none : ∀ (h : Heap) (a : Addr),
    a ∉ h.map Prod.fst → lookupC h a = none
  | [], _, _ => rfl
  | (a', c') :: rest, a, ha => by
    simp only [List.map_cons, List.mem_cons, not_or] at ha
    show (if a' = a then some c' else lookupC rest a) = none
    rw [if_neg (fun h => ha.1 h.symm)]
    exact lookupC_eq_none rest a ha.2

theorem lookupC_append_left : ∀ (h h' : Heap) (a : Addr),
    a ∈ h.map Prod.fst → lookupC (h ++ h') a = lookupC h a
  | [], _, a, ha => absurd ha (List.not_mem_nil a)
  | (a', c') :: rest, h', a, ha => by
    by_cases he : a' = a
    · show (if a' = a then some c' else lookupC (rest ++ h') a)
        = (if a' = a then some c' else lookupC rest a)
      rw [if_pos he, if_pos he]
    · simp only [List.map_cons, List.mem_cons] at ha
      rcases ha with rfl | ha
      · exact absurd rfl he
      · show (if a' = a then some c' else lookupC (rest ++ h') a)
          = (if a' = a then some c' else lookupC rest a)
        rw [if_neg he, if_neg he]
        exact lookupC_append_left rest h' a ha

theorem lookupC_append_right : ∀ (h h' : Heap) (a : Addr),
    a ∉ h.map Prod.fst → lookupC (h ++ h') a = lookupC h' a
  | [], _, _, _ => rfl
  | (a', c') :: rest, h', a, ha => by
    simp only [List.map_cons, List.mem_cons, not_or] at ha
    show (if a' = a then some c' else lookupC (rest ++ h') a) = lookupC h' a
    rw [if_neg (fun h => ha.1 h.symm)]
    exact lookupC_append_right rest h' a ha.2

theorem lookupC_update_ne : ∀ (h : Heap) (b : Addr) (c : HCell) (a : Addr),
    b ≠ a → lookupC (updateCell h b c) a = lookupC h a
  | [], _, _, _, _ => rfl
  | (a', c') :: rest, b, c, a, hne => by
    by_cases he : a' = b
    · subst he
      show lookupC (if a' = a' then (a', c) :: rest else (a', c') :: updateCell rest a' c) a
        = lookupC ((a', c') :: rest) a
      rw [if_pos rfl]
      show (if a' = a then some c else lookupC rest a)
        = (if a' = a then some c' else lookupC rest a)
      rw [if_neg hne, if_neg hne]
    · have hu : updateCell ((a', c') :: rest) b c = (a', c') :: updateCell rest b c := by
        show (if a' = b then (b, c) :: rest else (a', c') :: updateCell rest b c)
          = (a', c') :: updateCell rest b c
        rw [if_neg he]
      rw [hu]
      show (if a' = a then some c' else lookupC (updateCell rest b c) a)
        = (if a' = a then some c' else lookupC rest a)
      rw [lookupC_update_ne rest b c a hne]

/-! ### Reachability lemmas -/

theorem ReachA_trans {h : Heap} {a b c : Addr}
    (h1 : ReachA h a b) (h2 : ReachA h b c) : ReachA h a c := by
  induction h2 with
  | refl => exact h1
  | step _ _ _ _ hl hm ih => exact ReachA.step _ _ _ _ ih hl hm

theorem reach_closed {h : Heap} {a : Addr} (P : Addr → Prop) (ha : P a)
    (hstep : ∀ b cell c, P b → lookupC h b = some cell → c ∈ cellRefs cell → P c) :
    ∀ x, ReachA h a x → P x := by
  intro x hx
  induction hx with
  | refl => exact ha
  | step _ _ _ _ hl hm ih => exact hstep _ _ _ ih hl hm

/-! ### Read congruence: reading depends only on reachable cells -/

mutual

theorem readStep_congr : ∀ (v : HVal) (rf rg : Addr → Val),
    (∀ a ∈ hvalRefs v, rf a = rg a) → readStep rf v = readStep rg v
  | .hNull, _, _, _ => rfl
  | .hBool _, _, _, _ => rfl
  | .hNum _, _, _, _ => rfl
  | .hInt _, _, _, _ => rfl
  | .hStr _, _, _, _ => rfl
  | .hStruct, _, _, _ => rfl
  | .hArr xs, rf, rg, hag => by
    simp only [readStep]
    rw [readStepList_congr xs rf rg hag]
  | .hRef a, rf, rg, hag => hag a (by simp [hvalRefs])

theorem readStepList_congr : ∀ (xs : List HVal) (rf rg : Addr → Val),
    (∀ a ∈ hvalsRefs xs, rf a = rg a) → readStepList rf xs = readStepList rg xs
  | [], _, _, _ => rfl
  | v :: rest, rf, rg, hag => by
    simp only [readStepList]
    rw [readStep_congr v rf rg
        (fun a ha => hag a (by simp only [hvalsRefs, List.mem_append]; exact Or.inl ha)),
      readStepList_congr rest rf rg
        (fun a ha => hag a (by simp only [hvalsRefs, List.mem_append]; exact Or.inr ha))]

end

theorem readStepEntries_congr : ∀ (es : HCell) (rf rg : Addr → Val),
    (∀ a ∈ cellRefs es, rf a = rg a) → readStepEntries rf es = readStepEntries rg es
  | [], _, _, _ => rfl
  | (k, v) :: rest, rf, rg, hag => by
    simp only [readStepEntries]
    rw [readStep_congr v rf rg
        (fun a ha => hag a (by simp only [cellRefs, List.mem_append]; exact Or.inl ha)),
      readStepEntries_congr rest rf rg
        (fun a ha => hag a (by simp only [cellRefs, List.mem_append]; exact Or.inr ha))]

theorem readRefFn_congr : ∀ (F : Nat) (h h' : Heap) (a : Addr),
    (∀ x, ReachA h a x → lookupC h' x = lookupC h x) →
    readRefFn h' F a = readRefFn h F a
  | 0, _, _, _, _ => rfl
  | F + 1, h, h', a, hag => by
    have ha : lookupC h' a = lookupC h a := hag a (ReachA.refl a)
    simp only [readRefFn, ha]
    cases he : lookupC h a with
    | none => rfl
    | some es =>
      have hab : ∀ b ∈ cellRefs es, ReachA h a b := fun b hb =>
        ReachA.step a a b es (ReachA.refl a) he hb
      have heq : readStepEntries (readRefFn h' F) es = readStepEntries (readRefFn h F) es :=
        readStepEntries_congr es _ _ (fun b hb =>
          readRefFn_congr F h h' b (fun x hx => hag x (ReachA_trans (hab b hb) hx)))
      show Val.vMap (readStepEntries (readRefFn h' F) es)
        = Val.vMap (readStepEntries (readRefFn h F) es)
      rw [heq]

theorem readV_congr (F : Nat) (h h' : Heap) (v : HVal)
    (hag : ∀ x, (∃ a ∈ hvalRefs v, ReachA h a x) → lookupC h' x = lookupC h x) :
    readV h' F v = readV h F v := by
  unfold readV
  exact readStep_congr v _ _ (fun a ha =>
    readRefFn_congr F h h' a (fun x hx => hag x ⟨a, ha, hx⟩))

/-! ### Allocation specification: `allocV` appends only fresh, internally
closed cells, and reading the result back (in any extension that preserves
the allocated cells) yields the value's `heapShape`. -/

theorem HeapInv_extend (h Δ : Heap) (hinv : HeapInv h)
    (hcl : ∀ p ∈ Δ, ∀ b ∈ cellRefs p.2, b ∈ Δ.map Prod.fst) :
    HeapInv (h ++ Δ) := by
  intro p hp b hb
  rw [List.map_append, List.mem_append]
  rcases List.mem_append.mp hp with hp | hp
  · exact Or.inl (hinv p hp b hb)
  · exact Or.inr (hcl p hp b hb)

mutual

theorem allocV_spec : ∀ (v : Val) (h : Heap),
    ∃ Δ : Heap,
      (allocV h v).1 = h ++ Δ ∧
      (∀ a ∈ Δ.map Prod.fst, maxAddr h < a) ∧
      (∀ b ∈ hvalRefs (allocV h v).2, b ∈ Δ.map Prod.fst) ∧
      (∀ p ∈ Δ, ∀ b ∈ cellRefs p.2, b ∈ Δ.map Prod.fst) ∧
      mapDepth v ≤ Δ.length ∧
      (∀ hext : Heap,
        (∀ b ∈ (h ++ Δ).map Prod.fst, lookupC hext b = lookupC (h ++ Δ) b) →
        ∀ F : Nat, mapDepth v < F → readV hext F (allocV h v).2 = heapShape v)
  | .vNull, h => ⟨[], (List.append_nil h).symm,
      fun a ha => absurd ha (List.not_mem_nil a),
      fun b hb => absurd hb (List.not_mem_nil b),
      fun p hp => absurd hp (List.not_mem_nil p),
      Nat.le_refl 0,
      fun _ _ _ _ => rfl⟩
  | .vBool b, h => ⟨[], (List.append_nil h).symm,
      fun a ha => absurd ha (List.not_mem_nil a),
      fun x hx => absurd hx (List.not_mem_nil x),
      fun p hp => absurd hp (List.not_mem_nil p),
      Nat.le_refl 0,
      fun _ _ _ _ => rfl⟩
  | .vFloat q, h => ⟨[], (List.append_nil h).symm,
      fun a ha => absurd ha (List.not_mem_nil a),
      fun x hx => absurd hx (List.not_mem_nil x),
      fun p hp => absurd hp (List.not_mem_nil p),
      Nat.le_refl 0,
      fun _ _ _ _ => rfl⟩
  | .vInt n, h => ⟨[], (List.append_nil h).symm,
      fun a ha => absurd ha (List.not_mem_nil a),
      fun x hx => absurd hx (List.not_mem_nil x),
      fun p hp => absurd hp (List.not_mem_nil p),
      Nat.le_refl 0,
      fun _ _ _ _ => rfl⟩
  | .vStr s, h => ⟨[], (List.append_nil h).symm,
      fun a ha => absurd ha (List.not_mem_nil a),
      fun x hx => absurd hx (List.not_mem_nil x),
      fun p hp => absurd hp (List.not_mem_nil p),
      Nat.le_refl 0,
      fun _ _ _ _ => rfl⟩
  | .vStruct, h => ⟨[], (List.append_nil h).symm,
      fun a ha => absurd ha (List.not_mem_nil a),
      fun x hx => absurd hx (List.not_mem_nil x),
      fun p hp => absurd hp (List.not_mem_nil p),
      Nat.le_refl 0,
      fun _ _ _ _ => rfl⟩
  | .vArr xs, h => by
    have hspec := allocList_spec xs h
    rcases hAL : allocList h xs with ⟨h1, l⟩
    rw [hAL] at hspec
    obtain ⟨Δl, he1, hfresh, hrefs, hclosed, hdepth, hread⟩ := hspec
    have hAV : allocV h (.vArr xs) = (h1, .hArr l) := by
      simp only [allocV, hAL]
    have he1' : h1 = h ++ Δl := he1
    refine ⟨Δl, ?_, hfresh, ?_, hclosed, hdepth, ?_⟩
    · rw [hAV]; exact he1'
    · rw [hAV]
      intro b hb
      exact hrefs b hb
    · intro hext hag F hF
      rw [hAV]
      show Val.vArr (readStepList (readRefFn hext F) l) = Val.vArr (heapShapeList xs)
      have hl : readStepList (readRefFn hext F) l = heapShapeList xs :=
        hread hext hag F hF
      rw [hl]
  | .vMap m, h => by
    have hspec := allocEntries_spec m h
    rcases hAE : allocEntries h m with ⟨h1, es⟩
    rw [hAE] at hspec
    obtain ⟨Δe, he1, hfresh, hrefs, hclosed, hdepth, hread⟩ := hspec
    have he1' : h1 = h ++ Δe := he1
    have hAV : allocV h (.vMap m)
        = (h1 ++ [(maxAddr h1 + 1, es)], .hRef (maxAddr h1 + 1)) := by
      simp only [allocV, hAE]
    have hmax : maxAddr h ≤ maxAddr h1 := by
      rw [he1', maxAddr_append]; exact le_max_left _ _
    have hfreshA : ∀ b ∈ h1.map Prod.fst, b ≠ maxAddr h1 + 1 := by
      intro b hb
      have hble := mem_dom_le_maxAddr h1 b hb
      intro hco
      rw [hco] at hble
      exact Nat.not_succ_le_self _ hble
    have hEq : h ++ (Δe ++ [(maxAddr h1 + 1, es)]) = h1 ++ [(maxAddr h1 + 1, es)] := by
      rw [he1']; exact (List.append_assoc _ _ _).symm
    refine ⟨Δe ++ [(maxAddr h1 + 1, es)], ?_, ?_, ?_, ?_, ?_, ?_⟩
    · rw [hAV]; exact hEq.symm
    · intro a ha
      rw [List.map_append, List.mem_append] at ha
      rcases ha with ha | ha
      · exact hfresh a ha
      · simp only [List.map_cons, List.map_nil, List.mem_singleton] at ha
        subst ha
        exact Nat.lt_succ_of_le hmax
    · rw [hAV]
      intro b hb
      have hb' : b ∈ [maxAddr h1 + 1] := hb
      simp only [List.mem_singleton] at hb'
      subst hb'
      rw [List.map_append, List.mem_append]
      right
      simp
    · intro p hp b hb
      rw [List.map_append, List.mem_append]
      rcases List.mem_append.mp hp with hp | hp
      · exact Or.inl (hclosed p hp b hb)
      · simp only [List.mem_singleton] at hp
        subst hp
        exact Or.inl (hrefs b hb)
    · show mapDepthEntries m + 1 ≤ (Δe ++ [(maxAddr h1 + 1, es)]).length
      rw [List.length_append, List.length_cons, List.length_nil]
      omega
    · intro hext hag F hF
      rw [hAV]
      show readV hext F (.hRef (maxAddr h1 + 1)) = Val.vMap (heapShapeEntries m)
      cases F with
      | zero => exact absurd hF (by omega)
      | succ F' =>
        have hF' : mapDepthEntries m + 1 < F' + 1 := hF
        have hfm : mapDepthEntries m < F' := Nat.lt_of_succ_lt_succ hF'
        have hAdom : (maxAddr h1 + 1) ∈ (h ++ (Δe ++ [(maxAddr h1 + 1, es)])).map Prod.fst := by
          rw [List.map_append, List.mem_append]
          right
          rw [List.map_append, List.mem_append]
          right
          simp
        have hlookA : lookupC hext (maxAddr h1 + 1) = some es := by
          rw [hag _ hAdom, hEq]
          rw [lookupC_append_right h1 _ _ (fun hmem => (hfreshA _ hmem) rfl)]
          show (if maxAddr h1 + 1 = maxAddr h1 + 1 then some es
            else lookupC [] (maxAddr h1 + 1)) = some es
          rw [if_pos rfl]
        show (match lookupC hext (maxAddr h1 + 1) with
          | none => Val.vNull
          | some es => Val.vMap (readStepEntries (readRefFn hext F') es))
          = Val.vMap (heapShapeEntries m)
        rw [hlookA]
        show Val.vMap (readStepEntries (readRefFn hext F') es)
          = Val.vMap (heapShapeEntries m)
        have hag1 : ∀ b ∈ (h ++ Δe).map Prod.fst,
            lookupC hext b = lookupC (h ++ Δe) b := by
          intro b hb
          have hb' : b ∈ (h ++ (Δe ++ [(maxAddr h1 + 1, es)])).map Prod.fst := by
            rw [List.map_append, List.mem_append]
            rw [List.map_append, List.mem_append] at hb
            rcases hb with hb | hb
            · exact Or.inl hb
            · exact Or.inr (by rw [List.map_append, List.mem_append]; exact Or.inl hb)
          have hb1 : b ∈ h1.map Prod.fst := by rw [he1']; exact hb
          rw [hag b hb', hEq, ← he1']
          exact lookupC_append_left h1 _ b hb1
        have hee : readStepEntries (readRefFn hext F') es = heapShapeEntries m :=
          hread hext hag1 F' hfm
        rw [hee]
  | .vRmap m, h => by
    have hspec := allocEntries_spec m h
    rcases hAE : allocEntries h m with ⟨h1, es⟩
    rw [hAE] at hspec
    obtain ⟨Δe, he1, hfresh, hrefs, hclosed, hdepth, hread⟩ := hspec
    have he1' : h1 = h ++ Δe := he1
    have hAV : allocV h (.vRmap m)
        = (h1 ++ [(maxAddr h1 + 1, es)], .hRef (maxAddr h1 + 1)) := by
      simp only [allocV, hAE]
    have hmax : maxAddr h ≤ maxAddr h1 := by
      rw [he1', maxAddr_append]; exact le_max_left _ _
    have hfreshA : ∀ b ∈ h1.map Prod.fst, b ≠ maxAddr h1 + 1 := by
      intro b hb
      have hble := mem_dom_le_maxAddr h1 b hb
      intro hco
      rw [hco] at hble
      exact Nat.not_succ_le_self _ hble
    have hEq : h ++ (Δe ++ [(maxAddr h1 + 1, es)]) = h1 ++ [(maxAddr h1 + 1, es)] := by
      rw [he1']; exact (List.append_assoc _ _ _).symm
    refine ⟨Δe ++ [(maxAddr h1 + 1, es)], ?_, ?_, ?_, ?_, ?_, ?_⟩
    · rw [hAV]; exact hEq.symm
    · intro a ha
      rw [List.map_append, List.mem_append] at ha
      rcases ha with ha | ha
      · exact hfresh a ha
      · simp only [List.map_cons, List.map_nil, List.mem_singleton] at ha
        subst ha
        exact Nat.lt_succ_of_le hmax
    · rw [hAV]
      intro b hb
      have hb' : b ∈ [maxAddr h1 + 1] := hb
      simp only [List.mem_singleton] at hb'
      subst hb'
      rw [List.map_append, List.mem_append]
      right
      simp
    · intro p hp b hb
      rw [List.map_append, List.mem_append]
      rcases List.mem_append.mp hp with hp | hp
      · exact Or.inl (hclosed p hp b hb)
      · simp only [List.mem_singleton] at hp
        subst hp
        exact Or.inl (hrefs b hb)
    · show mapDepthEntries m + 1 ≤ (Δe ++ [(maxAddr h1 + 1, es)]).length
      rw [List.length_append, List.length_cons, List.length_nil]
      omega
    · intro hext hag F hF
      rw [hAV]
      show readV hext F (.hRef (maxAddr h1 + 1)) = Val.vMap (heapShapeEntries m)
      cases F with
      | zero => exact absurd hF (by omega)
      | succ F' =>
        have hF' : mapDepthEntries m + 1 < F' + 1 := hF
        have hfm : mapDepthEntries m < F' := Nat.lt_of_succ_lt_succ hF'
        have hAdom : (maxAddr h1 + 1) ∈ (h ++ (Δe ++ [(maxAddr h1 + 1, es)])).map Prod.fst := by
          rw [List.map_append, List.mem_append]
          right
          rw [List.map_append, List.mem_append]
          right
          simp
        have hlookA : lookupC hext (maxAddr h1 + 1) = some es := by
          rw [hag _ hAdom, hEq]
          rw [lookupC_append_right h1 _ _ (fun hmem => (hfreshA _ hmem) rfl)]
          show (if maxAddr h1 + 1 = maxAddr h1 + 1 then some es
            else lookupC [] (maxAddr h1 + 1)) = some es
          rw [if_pos rfl]
        show (match lookupC hext (maxAddr h1 + 1) with
          | none => Val.vNull
          | some es => Val.vMap (readStepEntries (readRefFn hext F') es))
          = Val.vMap (heapShapeEntries m)
        rw [hlookA]
        show Val.vMap (readStepEntries (readRefFn hext F') es)
          = Val.vMap (heapShapeEntries m)
        have hag1 : ∀ b ∈ (h ++ Δe).map Prod.fst,
            lookupC hext b = lookupC (h ++ Δe) b := by
          intro b hb
          have hb' : b ∈ (h ++ (Δe ++ [(maxAddr h1 + 1, es)])).map Prod.fst := by
            rw [List.map_append, List.mem_append]
            rw [List.map_append, List.mem_append] at hb
            rcases hb with hb | hb
            · exact Or.inl hb
            · exact Or.inr (by rw [List.map_append, List.mem_append]; exact Or.inl hb)
          have hb1 : b ∈ h1.map Prod.fst := by rw [he1']; exact hb
          rw [hag b hb', hEq, ← he1']
          exact lookupC_append_left h1 _ b hb1
        have hee : readStepEntries (readRefFn hext F') es = heapShapeEntries m :=
          hread hext hag1 F' hfm
        rw [hee]

theorem allocList_spec : ∀ (xs : List Val) (h : Heap),
    ∃ Δ : Heap,
      (allocList h xs).1 = h ++ Δ ∧
      (∀ a ∈ Δ.map Prod.fst, maxAddr h < a) ∧
      (∀ b ∈ hvalsRefs (allocList h xs).2, b ∈ Δ.map Prod.fst) ∧
      (∀ p ∈ Δ, ∀ b ∈ cellRefs p.2, b ∈ Δ.map Prod.fst) ∧
      mapDepthList xs ≤ Δ.length ∧
      (∀ hext : Heap,
        (∀ b ∈ (h ++ Δ).map Prod.fst, lookupC hext b = lookupC (h ++ Δ) b) →
        ∀ F : Nat, mapDepthList xs < F →
          readStepList (readRefFn hext F) (allocList h xs).2 = heapShapeList xs)
  | [], h => ⟨[], (List.append_nil h).symm,
      fun a ha => absurd ha (List.not_mem_nil a),
      fun x hx => absurd hx (List.not_mem_nil x),
      fun p hp => absurd hp (List.not_mem_nil p),
      Nat.le_refl 0,
      fun _ _ _ _ => rfl⟩
  | v :: rest, h => by
    have hspecV := allocV_spec v h
    rcases hV : allocV h v with ⟨h1, hv⟩
    rw [hV] at hspecV
    obtain ⟨Δv, hv1, hvfresh, hvrefs, hvclosed, hvdepth, hvread⟩ := hspecV
    have hv1' : h1 = h ++ Δv := hv1
    have hspecR := allocList_spec rest h1
    rcases hR : allocList h1 rest with ⟨h2, l⟩
    rw [hR] at hspecR
    obtain ⟨Δr, hr1, hrfresh, hrrefs, hrclosed, hrdepth, hrread⟩ := hspecR
    have hr1' : h2 = h1 ++ Δr := hr1
    have hAL : allocList h (v :: rest) = (h2, hv :: l) := by
      simp only [allocList, hV, hR]
    have hEq : h ++ (Δv ++ Δr) = h1 ++ Δr := by
      rw [hv1']; exact (List.append_assoc _ _ _).symm
    have hmax1 : maxAddr h ≤ maxAddr h1 := by
      rw [hv1', maxAddr_append]; exact le_max_left _ _
    refine ⟨Δv ++ Δr, ?_, ?_, ?_, ?_, ?_, ?_⟩
    · rw [hAL]
      show h2 = h ++ (Δv ++ Δr)
      rw [hEq]; exact hr1'
    · intro a ha
      rw [List.map_append, List.mem_append] at ha
      rcases ha with ha | ha
      · exact hvfresh a ha
      · exact lt_of_le_of_lt hmax1 (hrfresh a ha)
    · rw [hAL]
      intro b hb
      rw [List.map_append, List.mem_append]
      have hb' : b ∈ hvalRefs hv ++ hvalsRefs l := hb
      rw [List.mem_append] at hb'
      rcases hb' with hb' | hb'
      · exact Or.inl (hvrefs b hb')
      · exact Or.inr (hrrefs b hb')
    · intro p hp b hb
      rw [List.map_append, List.mem_append]
      rcases List.mem_append.mp hp with hp | hp
      · exact Or.inl (hvclosed p hp b hb)
      · exact Or.inr (hrclosed p hp b hb)
    · show max (mapDepth v) (mapDepthList rest) ≤ (Δv ++ Δr).length
      rw [List.length_append]
      exact max_le (le_trans hvdepth (Nat.le_add_right _ _))
        (le_trans hrdepth (Nat.le_add_left _ _))
    · intro hext hag F hF
      rw [hAL]
      have hFv : mapDepth v < F := lt_of_le_of_lt (le_max_left _ _) hF
      have hFr : mapDepthList rest < F := lt_of_le_of_lt (le_max_right _ _) hF
      have hagV : ∀ b ∈ (h ++ Δv).map Prod.fst,
          lookupC hext b = lookupC (h ++ Δv) b := by
        intro b hb
        have hbd : b ∈ (h ++ (Δv ++ Δr)).map Prod.fst := by
          rw [List.map_append, List.mem_append]
          rw [List.map_append, List.mem_append] at hb
          rcases hb with hb | hb
          · exact Or.inl hb
          · exact Or.inr (by rw [List.map_append, List.mem_append]; exact Or.inl hb)
        have hb1 : b ∈ h1.map Prod.fst := by rw [hv1']; exact hb
        rw [hag b hbd, hEq, ← hv1']
        exact lookupC_append_left h1 Δr b hb1
      have hagR : ∀ b ∈ (h1 ++ Δr).map Prod.fst,
          lookupC hext b = lookupC (h1 ++ Δr) b := by
        intro b hb
        have hbd : b ∈ (h ++ (Δv ++ Δr)).map Prod.fst := by rw [hEq]; exact hb
        rw [hag b hbd, hEq]
      show readStep (readRefFn hext F) hv :: readStepList (readRefFn hext F) l
        = heapShape v :: heapShapeList rest
      have h1eq : readStep (readRefFn hext F) hv = heapShape v :=
        hvread hext hagV F hFv
      have h2eq : readStepList (readRefFn hext F) l = heapShapeList rest :=
        hrread hext hagR F hFr
      rw [h1eq, h2eq]

theorem allocEntries_spec : ∀ (m : List (String × Val)) (h : Heap),
    ∃ Δ : Heap,
      (allocEntries h m).1 = h ++ Δ ∧
      (∀ a ∈ Δ.map Prod.fst, maxAddr h < a) ∧
      (∀ b ∈ cellRefs (allocEntries h m).2, b ∈ Δ.map Prod.fst) ∧
      (∀ p ∈ Δ, ∀ b ∈ cellRefs p.2, b ∈ Δ.map Prod.fst) ∧
      mapDepthEntries m ≤ Δ.length ∧
      (∀ hext : Heap,
        (∀ b ∈ (h ++ Δ).map Prod.fst, lookupC hext b = lookupC (h ++ Δ) b) →
        ∀ F : Nat, mapDepthEntries m < F →
          readStepEntries (readRefFn hext F) (allocEntries h m).2 = heapShapeEntries m)
  | [], h => ⟨[], (List.append_nil h).symm,
      fun a ha => absurd ha (List.not_mem_nil a),
      fun x hx => absurd hx (List.not_mem_nil x),
      fun p hp => absurd hp (List.not_mem_nil p),
      Nat.le_refl 0,
      fun _ _ _ _ => rfl⟩
  | (k, v) :: rest, h => by
    have hspecV := allocV_spec v h
    rcases hV : allocV h v with ⟨h1, hv⟩
    rw [hV] at hspecV
    obtain ⟨Δv, hv1, hvfresh, hvrefs, hvclosed, hvdepth, hvread⟩ := hspecV
    have hv1' : h1 = h ++ Δv := hv1
    have hspecR := allocEntries_spec rest h1
    rcases hR : allocEntries h1 rest with ⟨h2, es⟩
    rw [hR] at hspecR
    obtain ⟨Δr, hr1, hrfresh, hrrefs, hrclosed, hrdepth, hrread⟩ := hspecR
    have hr1' : h2 = h1 ++ Δr := hr1
    have hAE : allocEntries h ((k, v) :: rest) = (h2, (k, hv) :: es) := by
      simp only [allocEntries, hV, hR]
    have hEq : h ++ (Δv ++ Δr) = h1 ++ Δr := by
      rw [hv1']; exact (List.append_assoc _ _ _).symm
    have hmax1 : maxAddr h ≤ maxAddr h1 := by
      rw [hv1', maxAddr_append]; exact le_max_left _ _
    refine ⟨Δv ++ Δr, ?_, ?_, ?_, ?_, ?_, ?_⟩
    · rw [hAE]
      show h2 = h ++ (Δv ++ Δr)
      rw [hEq]; exact hr1'
    · intro a ha
      rw [List.map_append, List.mem_append] at ha
      rcases ha with ha | ha
      · exact hvfresh a ha
      · exact lt_of_le_of_lt hmax1 (hrfresh a ha)
    · rw [hAE]
      intro b hb
      rw [List.map_append, List.mem_append]
      have hb' : b ∈ hvalRefs hv ++ cellRefs es := hb
      rw [List.mem_append] at hb'
      rcases hb' with hb' | hb'
      · exact Or.inl (hvrefs b hb')
      · exact Or.inr (hrrefs b hb')
    · intro p hp b hb
      rw [List.map_append, List.mem_append]
      rcases List.mem_append.mp hp with hp | hp
      · exact Or.inl (hvclosed p hp b hb)
      · exact Or.inr (hrclosed p hp b hb)
    · show max (mapDepth v) (mapDepthEntries rest) ≤ (Δv ++ Δr).length
      rw [List.length_append]
      exact max_le (le_trans hvdepth (Nat.le_add_right _ _))
        (le_trans hrdepth (Nat.le_add_left _ _))
    · intro hext hag F hF
      rw [hAE]
      have hFv : mapDepth v < F := lt_of_le_of_lt (le_max_left _ _) hF
      have hFr : mapDepthEntries rest < F := lt_of_le_of_lt (le_max_right _ _) hF
      have hagV : ∀ b ∈ (h ++ Δv).map Prod.fst,
          lookupC hext b = lookupC (h ++ Δv) b := by
        intro b hb
        have hbd : b ∈ (h ++ (Δv ++ Δr)).map Prod.fst := by
          rw [List.map_append, List.mem_append]
          rw [List.map_append, List.mem_append] at hb
          rcases hb with hb | hb
          · exact Or.inl hb
          · exact Or.inr (by rw [List.map_append, List.mem_append]; exact Or.inl hb)
        have hb1 : b ∈ h1.map Prod.fst := by rw [hv1']; exact hb
        rw [hag b hbd, hEq, ← hv1']
        exact lookupC_append_left h1 Δr b hb1
      have hagR : ∀ b ∈ (h1 ++ Δr).map Prod.fst,
          lookupC hext b = lookupC (h1 ++ Δr) b := by
        intro b hb
        have hbd : b ∈ (h ++ (Δv ++ Δr)).map Prod.fst := by rw [hEq]; exact hb
        rw [hag b hbd, hEq]
      show (k, readStep (readRefFn hext F) hv) :: readStepEntries (readRefFn hext F) es
        = (k, heapShape v) :: heapShapeEntries rest
      have h1eq : readStep (readRefFn hext F) hv = heapShape v :=
        hvread hext hagV F hFv
      have h2eq : readStepEntries (readRefFn hext F) es = heapShapeEntries rest :=
        hrread hext hagR F hFr
      rw [h1eq, h2eq]

end

/-! ### Bridging `allocDoc` and `copyHeap` to `allocV` -/

theorem allocDoc_allocV (h : Heap) (m : List (String × Val)) :
    allocV h (.vMap m) = ((allocDoc h m).1, .hRef (allocDoc h m).2) := by
  rcases hAE : allocEntries h m with ⟨h1, es⟩
  simp only [allocV, allocDoc, hAE]

theorem copyHeap_allocV (h : Heap) (a : Addr) (m : List (String × Val))
    (hre : readV h (heapFuel h) (.hRef a) = .vMap m) :
    allocV h (.vMap (jsonNormEntries m))
      = ((copyHeap h a).1, .hRef (copyHeap h a).2) := by
  rcases hAE : allocEntries h (jsonNormEntries m) with ⟨h1, es⟩
  simp only [copyHeap, hre, jsonNorm, allocV, hAE]

theorem allocDoc_spec (h : Heap) (m : List (String × Val)) :
    ∃ Δ : Heap,
      (allocDoc h m).1 = h ++ Δ ∧
      (∀ a ∈ Δ.map Prod.fst, maxAddr h < a) ∧
      (allocDoc h m).2 ∈ Δ.map Prod.fst ∧
      (∀ p ∈ Δ, ∀ b ∈ cellRefs p.2, b ∈ Δ.map Prod.fst) ∧
      mapDepthEntries m + 1 ≤ Δ.length ∧
      (∀ hext : Heap,
        (∀ b ∈ (h ++ Δ).map Prod.fst, lookupC hext b = lookupC (h ++ Δ) b) →
        ∀ F : Nat, mapDepthEntries m + 1 < F →
          readV hext F (.hRef (allocDoc h m).2) = Val.vMap (heapShapeEntries m)) := by
  obtain ⟨Δ, h1, h2, h3, h4, h5, h6⟩ := allocV_spec (.vMap m) h
  have hb := allocDoc_allocV h m
  refine ⟨Δ, ?_, h2, ?_, h4, h5, ?_⟩
  · rw [← h1, hb]
  · apply h3
    rw [hb]
    simp [hvalRefs]
  · intro hext hag F hF
    have hr := h6 hext hag F hF
    rw [hb] at hr
    exact hr

/-- Serializing the shape read back after allocating the round-trip
normalization of a map gives the same JSON text as serializing the map. -/
theorem toJson_vMap_norm (X : List (String × Val)) :
    toJson (.vMap (heapShapeEntries (jsonNormEntries X))) = toJson (.vMap X) := by
  rw [heapShapeEntries_jsonNorm]
  have h1 : Val.vMap (jsonNormEntries X) = jsonNorm (.vMap X) := rfl
  rw [h1, toJson_jsonNorm]

/-- **C8.** For every well-formed heap and document allocated into it,
`Copy` (modelled by `copyHeap`: serialize the receiver's tree, round-trip
normalize, allocate into all-fresh cells) returns a document that (a) is
equal in content to the original, via the serialize round trip: both roots
serialize to the same JSON text; (b) shares no structure with the original:
their reachable cell sets are disjoint; and (c) is fully independent under
mutation: overwriting any cell reachable from the copy leaves every read of
the original unchanged, and vice versa. -/
theorem Copy_fully_independent
    (h₀ : Heap) (m0 : List (String × Val)) (hinv : HeapInv h₀)
    (h₁ : Heap) (a₁ : Addr) (hD : allocDoc h₀ m0 = (h₁, a₁))
    (h₂ : Heap) (a₂ : Addr) (hC : copyHeap h₁ a₁ = (h₂, a₂)) :
    toJson (readV h₂ (heapFuel h₂) (.hRef a₂))
        = toJson (readV h₂ (heapFuel h₂) (.hRef a₁)) ∧
    (∀ x, ReachA h₂ a₂ x → ¬ ReachA h₂ a₁ x) ∧
    (∀ x c F, ReachA h₂ a₂ x →
        readV (updateCell h₂ x c) F (.hRef a₁) = readV h₂ F (.hRef a₁)) ∧
    (∀ x c F, ReachA h₂ a₁ x →
        readV (updateCell h₂ x c) F (.hRef a₂) = readV h₂ F (.hRef a₂)) := by
  obtain ⟨Δ₁, hd1, hd2, hd3, hd4, hd5, hd6⟩ := allocDoc_spec h₀ m0
  rw [hD] at hd1 hd3 hd6
  have h1eq : h₁ = h₀ ++ Δ₁ := hd1
  have ha1mem : a₁ ∈ Δ₁.map Prod.fst := hd3
  have hinv1 : HeapInv h₁ := by rw [h1eq]; exact HeapInv_extend h₀ Δ₁ hinv hd4
  have ha1dom : a₁ ∈ h₁.map Prod.fst := by
    rw [h1eq, List.map_append, List.mem_append]; exact Or.inr ha1mem
  have hlen1 : mapDepthEntries m0 + 1 ≤ h₁.length := by
    rw [h1eq, List.length_append]
    omega
  have hread1 : readV h₁ (heapFuel h₁) (.hRef a₁) = Val.vMap (heapShapeEntries m0) :=
    hd6 h₁ (fun b _ => by rw [h1eq]) (heapFuel h₁) (Nat.lt_succ_of_le hlen1)
  have hbridge := copyHeap_allocV h₁ a₁ (heapShapeEntries m0) hread1
  rw [hC] at hbridge
  obtain ⟨Δ₂, hc1, hc2, hc3, hc4, hc5, hc6⟩ :=
    allocV_spec (.vMap (jsonNormEntries (heapShapeEntries m0))) h₁
  rw [hbridge] at hc1 hc3 hc6
  have h2eq : h₂ = h₁ ++ Δ₂ := hc1
  have ha2mem : a₂ ∈ Δ₂.map Prod.fst := by
    apply hc3
    simp [hvalRefs]
  have hfresh2 : ∀ b ∈ Δ₂.map Prod.fst, maxAddr h₁ < b := hc2
  have hndom : ∀ b ∈ Δ₂.map Prod.fst, b ∉ h₁.map Prod.fst := by
    intro b hb hmem
    exact absurd (mem_dom_le_maxAddr h₁ b hmem) (Nat.not_le.mpr (hfresh2 b hb))
  have hreach1 : ∀ x, ReachA h₂ a₁ x → x ∈ h₁.map Prod.fst := by
    apply reach_closed (fun y => y ∈ h₁.map Prod.fst) ha1dom
    intro b cell cx hb hl hm
    have hlb : lookupC h₁ b = some cell := by
      rw [← hl, h2eq]
      exact (lookupC_append_left h₁ Δ₂ b hb).symm
    exact hinv1 (b, cell) (lookupC_some_mem h₁ b cell hlb) cx hm
  have hreach2 : ∀ x, ReachA h₂ a₂ x → x ∈ Δ₂.map Prod.fst := by
    apply reach_closed (fun y => y ∈ Δ₂.map Prod.fst) ha2mem
    intro b cell cx hb hl hm
    have hlb : lookupC Δ₂ b = some cell := by
      rw [← hl, h2eq]
      exact (lookupC_append_right h₁ Δ₂ b (hndom b hb)).symm
    exact hc4 (b, cell) (lookupC_some_mem Δ₂ b cell hlb) cx hm
  refine ⟨?_, ?_, ?_, ?_⟩
  · have hlen2 : mapDepth (.vMap (jsonNormEntries (heapShapeEntries m0))) ≤ h₂.length := by
      rw [h2eq, List.length_append]
      exact le_trans hc5 (Nat.le_add_left _ _)
    have hrA2 : readV h₂ (heapFuel h₂) (.hRef a₂)
        = Val.vMap (heapShapeEntries (jsonNormEntries (heapShapeEntries m0))) :=
      hc6 h₂ (fun b _ => by rw [h2eq]) (heapFuel h₂) (Nat.lt_succ_of_le hlen2)
    have hrA1 : readV h₂ (heapFuel h₂) (.hRef a₁) = Val.vMap (heapShapeEntries m0) := by
      have hag : ∀ b ∈ (h₀ ++ Δ₁).map Prod.fst,
          lookupC h₂ b = lookupC (h₀ ++ Δ₁) b := by
        intro b hb
        have hb1 : b ∈ h₁.map Prod.fst := by rw [h1eq]; exact hb
        rw [h2eq, ← h1eq]
        exact lookupC_append_left h₁ Δ₂ b hb1
      have hlenF : mapDepthEntries m0 + 1 ≤ h₂.length := by
        rw [h2eq, List.length_append]
        exact le_trans hlen1 (Nat.le_add_right _ _)
      exact hd6 h₂ hag (heapFuel h₂) (Nat.lt_succ_of_le hlenF)
    rw [hrA2, hrA1]
    exact toJson_vMap_norm (heapShapeEntries m0)
  · intro x hx2 hx1
    exact absurd (mem_dom_le_maxAddr h₁ x (hreach1 x hx1))
      (Nat.not_le.mpr (hfresh2 x (hreach2 x hx2)))
  · intro x c F hx2
    apply readV_congr
    intro y hy
    obtain ⟨a, ha, hr⟩ := hy
    have ha2 : a ∈ [a₁] := ha
    rw [List.mem_singleton] at ha2
    subst ha2
    have hy1 : y ∈ h₁.map Prod.fst := hreach1 y hr
    have hxd2 : x ∈ Δ₂.map Prod.fst := hreach2 x hx2
    exact lookupC_update_ne h₂ x c y (fun hco => (hndom y (hco ▸ hxd2)) hy1)
  · intro x c F hx1
    apply readV_congr
    intro y hy
    obtain ⟨a, ha, hr⟩ := hy
    have ha2 : a ∈ [a₂] := ha
    rw [List.mem_singleton] at ha2
    subst ha2
    have hy2 : y ∈ Δ₂.map Prod.fst := hreach2 y hr
    have hxd1 : x ∈ h₁.map Prod.fst := hreach1 x hx1
    exact lookupC_update_ne h₂ x c y (fun hco => (hndom y hy2) (hco ▸ hxd1))

/-- Witness for C8: the document `{"a": 3, "b": {"c": struct}}` allocated into
the empty heap, then copied; the copy's root (address 5) serializes to the same
JSON text as the original's root (address 2). -/
theorem Copy_fully_independent_witness :
    HeapInv ([] : Heap) ∧
    toJson (readV
        [(1, [("c", HVal.hStruct)]), (2, [("a", HVal.hInt 3), ("b", HVal.hRef 1)]),
         (3, []), (4, [("c", HVal.hRef 3)]), (5, [("a", HVal.hNum 3), ("b", HVal.hRef 4)])]
        (heapFuel
          [(1, [("c", HVal.hStruct)]), (2, [("a", HVal.hInt 3), ("b", HVal.hRef 1)]),
           (3, []), (4, [("c", HVal.hRef 3)]), (5, [("a", HVal.hNum 3), ("b", HVal.hRef 4)])])
        (.hRef 5))
      = toJson (readV
        [(1, [("c", HVal.hStruct)]), (2, [("a", HVal.hInt 3), ("b", HVal.hRef 1)]),
         (3, []), (4, [("c", HVal.hRef 3)]), (5, [("a", HVal.hNum 3), ("b", HVal.hRef 4)])]
        (heapFuel
          [(1, [("c", HVal.hStruct)]), (2, [("a", HVal.hInt 3), ("b", HVal.hRef 1)]),
           (3, []), (4, [("c", HVal.hRef 3)]), (5, [("a", HVal.hNum 3), ("b", HVal.hRef 4)])])
        (.hRef 2)) :=
  ⟨fun p hp => absurd hp (List.not_mem_nil p),
   (Copy_fully_independent [] [("a", Val.vInt 3), ("b", Val.vRmap [("c", Val.vStruct)])]
     (fun p hp => absurd hp (List.not_mem_nil p))
     [(1, [("c", HVal.hStruct)]), (2, [("a", HVal.hInt 3), ("b", HVal.hRef 1)])] 2 rfl
     [(1, [("c", HVal.hStruct)]), (2, [("a", HVal.hInt 3), ("b", HVal.hRef 1)]),
      (3, []), (4, [("c", HVal.hRef 3)]), (5, [("a", HVal.hNum 3), ("b", HVal.hRef 4)])] 5
     rfl).1⟩
